import Mathlib

/-!
# Verification of the Pulox hybrid text-correction engine

Shallow embedding of the correction pipeline of `src/correction/`
(`rules.py`, `rules_tl.py`, `error_corrector.py`, `models.py`) and proofs
of the specified properties.

Modelling conventions:
* Text is `List Char`.  Python `str.lower()` / `str.upper()` are modelled
  by the ASCII case maps (the marker sets, rule patterns and lexicon keys
  are all ASCII, so the embedding agrees with Python on every input whose
  relevant tokens are ASCII).
* Python whitespace (`\s`, `str.split()`, `str.strip()`) is modelled by
  the six ASCII whitespace characters.
* Confidences are rationals (`ℚ`); Python's `round(x, 3)` is modelled by
  round-half-to-even at three decimal places.
* The regular expressions appearing in the source are embedded as values
  of a small regex AST together with a backtracking matcher implementing
  Python `re` semantics (leftmost match, greedy quantifiers, ordered
  alternation, `re.IGNORECASE` where the source passes that flag).
-/

set_option maxRecDepth 10000

namespace Pulox

/-- The six characters matched by Python `\s` / `str.split()` (ASCII). -/
def isPySpace (c : Char) : Bool :=
  c = ' ' || c = '\t' || c = '\n' || c = '\x0d' || c = '\x0b' || c = '\x0c'

/-- Python `\w` word character (ASCII fragment): `[A-Za-z0-9_]`. -/
def isWordChar (c : Char) : Bool :=
  ('a' ≤ c && c ≤ 'z') || ('A' ≤ c && c ≤ 'Z') || ('0' ≤ c && c ≤ '9') || c = '_'

/-- ASCII lower-casing of one character (model of `str.lower()` per char). -/
def lowerC (c : Char) : Char :=
  if 'A' ≤ c && c ≤ 'Z' then Char.ofNat (c.toNat + 32) else c

/-- ASCII upper-casing of one character (model of `str.upper()` per char). -/
def upperC (c : Char) : Char :=
  if 'a' ≤ c && c ≤ 'z' then Char.ofNat (c.toNat - 32) else c

/-- `str.lower()` on a whole text. -/
def lowerL (s : List Char) : List Char := s.map lowerC

theorem dropWhile_len_le (p : α → Bool) (l : List α) :
    (l.dropWhile p).length ≤ l.length := by
  induction l with
  | nil => simp [List.dropWhile]
  | cons a l ih =>
    rw [List.dropWhile_cons]
    by_cases h : p a = true <;> simp [h] <;> omega

/-- Helper for `pySplit`: `cur` is the reversed current token. -/
def pySplitGo (cur : List Char) : List Char → List (List Char)
  | [] => if cur.isEmpty then [] else [cur.reverse]
  | c :: cs =>
    if isPySpace c then
      if cur.isEmpty then pySplitGo [] cs else cur.reverse :: pySplitGo [] cs
    else pySplitGo (c :: cur) cs

/-- Python `str.split()` with no separator: split on whitespace runs,
dropping empty tokens. -/
def pySplit (s : List Char) : List (List Char) := pySplitGo [] s

/-- Helper for `collapseWs`: `inRun` records whether the previous
character was whitespace. -/
def collapseGo (inRun : Bool) : List Char → List Char
  | [] => []
  | c :: cs =>
    if isPySpace c then
      if inRun then collapseGo true cs else ' ' :: collapseGo true cs
    else c :: collapseGo false cs

/-- `re.sub(r'\s+', ' ', s)`: collapse each whitespace run to one space. -/
def collapseWs (s : List Char) : List Char := collapseGo false s

/-- `str.strip()`: drop leading and trailing whitespace. -/
def pyStrip (s : List Char) : List Char :=
  ((s.dropWhile isPySpace).reverse.dropWhile isPySpace).reverse

/-- The cleanup at the end of `CorrectionRules.apply_rules`:
`re.sub(r'\s+', ' ', corrected).strip()`. -/
def wsCleanup (s : List Char) : List Char := pyStrip (collapseWs s)

/-! ## Kernel-evaluable rational arithmetic

The `Rat` arithmetic of the standard library is `@[irreducible]`, so
concrete runs of the pipeline could not be settled by `decide` through
it.  The operations below compute with `mkRat` (which evaluates) and are
proved equal to the library operations, which the theorems then use. -/

/-- Addition on `ℚ` through `mkRat`. -/
def qadd (a b : ℚ) : ℚ := mkRat (a.num * b.den + b.num * a.den) (a.den * b.den)

/-- Subtraction on `ℚ` through `mkRat`. -/
def qsub (a b : ℚ) : ℚ := mkRat (a.num * b.den - b.num * a.den) (a.den * b.den)

/-- Multiplication on `ℚ` through `mkRat`. -/
def qmul (a b : ℚ) : ℚ := mkRat (a.num * b.num) (a.den * b.den)

/-- Reciprocal on `ℚ` through `mkRat` (`qinv 0 = 0`). -/
def qinv (b : ℚ) : ℚ :=
  if 0 ≤ b.num then mkRat (b.den : ℤ) b.num.toNat
  else mkRat (-(b.den : ℤ)) b.num.natAbs

/-- Division on `ℚ` through `mkRat`. -/
def qdiv (a b : ℚ) : ℚ := qmul a (qinv b)

/-- Python `sum(...)` over rationals (left fold starting at 0). -/
def qsum (l : List ℚ) : ℚ := l.foldl qadd (mkRat 0 1)

/-- Python `min(a, b)` on rationals. -/
def qmin (a b : ℚ) : ℚ := if Rat.blt b a then b else a

theorem qadd_eq (a b : ℚ) : qadd a b = a + b := by
  unfold qadd
  rw [Rat.mkRat_eq_div]
  have ha : ((a.den : ℚ)) ≠ 0 := Nat.cast_ne_zero.mpr a.den_ne_zero
  have hb : ((b.den : ℚ)) ≠ 0 := Nat.cast_ne_zero.mpr b.den_ne_zero
  conv_rhs => rw [← Rat.num_div_den a, ← Rat.num_div_den b]
  rw [div_add_div _ _ ha hb]
  push_cast
  ring_nf

theorem qsub_eq (a b : ℚ) : qsub a b = a - b := by
  unfold qsub
  rw [Rat.mkRat_eq_div]
  have ha : ((a.den : ℚ)) ≠ 0 := Nat.cast_ne_zero.mpr a.den_ne_zero
  have hb : ((b.den : ℚ)) ≠ 0 := Nat.cast_ne_zero.mpr b.den_ne_zero
  conv_rhs => rw [← Rat.num_div_den a, ← Rat.num_div_den b]
  rw [div_sub_div _ _ ha hb]
  push_cast
  ring_nf

theorem qmul_eq (a b : ℚ) : qmul a b = a * b := by
  unfold qmul
  rw [Rat.mkRat_eq_div]
  have ha : ((a.den : ℚ)) ≠ 0 := Nat.cast_ne_zero.mpr a.den_ne_zero
  have hb : ((b.den : ℚ)) ≠ 0 := Nat.cast_ne_zero.mpr b.den_ne_zero
  conv_rhs => rw [← Rat.num_div_den a, ← Rat.num_div_den b]
  rw [div_mul_div_comm]
  push_cast
  ring_nf

theorem qinv_eq (b : ℚ) : qinv b = b⁻¹ := by
  unfold qinv
  split_ifs with h
  · rw [Rat.mkRat_eq_div]
    conv_rhs => rw [← Rat.num_div_den b]
    rw [inv_div]
    congr 1
    exact_mod_cast congrArg (fun z : ℤ => (z : ℚ)) (Int.toNat_of_nonneg h)
  · rw [Rat.mkRat_eq_div]
    conv_rhs => rw [← Rat.num_div_den b]
    rw [inv_div]
    push_cast
    rw [Int.cast_natAbs]
    rw [abs_of_neg (by exact_mod_cast not_le.mp h)]
    push_cast
    rw [neg_div_neg_eq]

theorem qdiv_eq (a b : ℚ) : qdiv a b = a / b := by
  rw [qdiv, qmul_eq, qinv_eq, div_eq_mul_inv]

theorem qsum_eq (l : List ℚ) : qsum l = l.sum := by
  have hf : qadd = (· + ·) := by
    funext a b
    exact qadd_eq a b
  rw [qsum, hf, List.sum_eq_foldl]
  norm_num

theorem qmin_eq (a b : ℚ) : qmin a b = min a b := by
  unfold qmin
  rw [min_def]
  have hle : (a ≤ b) = (Rat.blt b a = false) := rfl
  by_cases h : Rat.blt b a
  · simp [h, hle]
  · simp [h, hle]

theorem qlt_iff (a b : ℚ) : (Rat.blt a b = true) ↔ a < b := Iff.rfl

/-! ## A small regex engine (the fragment of Python `re` used by the source)

The patterns occurring in `rules.py` / `error_corrector.py` use only:
literals, `\b`, `(?!\w)`, single-character classes, `+`, `*`, `{2,}` over
a class, capture groups around a class or an alternation of literals, and
sequencing.  The matcher below implements Python backtracking order:
candidates are produced most-preferred first (greedy quantifiers longest
first, alternatives in written order), and a scan takes the first
candidate at the leftmost matching position. -/

inductive RE where
  | lit (s : List Char)
  | wb
  | nwla
  | cl (p : Char → Bool)
  | plus (p : Char → Bool)
  | rep2 (p : Char → Bool)
  | star (p : Char → Bool)
  | grp (n : Nat) (r : RE)
  | altL (ss : List (List Char))
  | seqR (rs : List RE)

/-- Character comparison, optionally case-insensitive (`re.IGNORECASE`). -/
def chEq (ci : Bool) (a b : Char) : Bool :=
  if ci then lowerC a = lowerC b else a = b

/-- Match a literal: consume `pat` from `suf`, pushing the consumed *input*
characters onto `pre` (so captures and `\b` context keep original case). -/
def litM (ci : Bool) : List Char → List Char → List Char →
    Option (List Char × List Char)
  | [], pre, suf => some (pre, suf)
  | p :: ps, pre, suf =>
    match suf with
    | [] => none
    | c :: cs => if chEq ci p c then litM ci ps (c :: pre) cs else none

/-- Captured groups: group number paired with the captured text. -/
abbrev Caps := List (Nat × List Char)

/-- Greedy split candidates for `p+` / `p{2,}` / `p*`: consume `k` characters
of the maximal run, longest first, down to `lo`. -/
def runCands (p : Char → Bool) (lo : Nat) (pre suf : List Char) :
    List (List Char × List Char) :=
  let n := (suf.takeWhile p).length
  if n < lo then []
  else (List.range (n + 1 - lo)).map fun i =>
    let k := n - i
    ((suf.take k).reverse ++ pre, suf.drop k)

/-- Word-boundary test between `pre.head?` (char before the position) and
`suf.head?` (char at the position). -/
def atWb (pre suf : List Char) : Bool :=
  (match pre.head? with | some c => isWordChar c | none => false) !=
  (match suf.head? with | some c => isWordChar c | none => false)

mutual

/-- All ways to match `r` at the position `(pre, suf)`, most preferred
first.  Each result is `(pre', suf', captures)`. -/
def mre (ci : Bool) : RE → List Char → List Char →
    List (List Char × List Char × Caps)
  | .lit s, pre, suf =>
    match litM ci s pre suf with
    | some (p, s') => [(p, s', [])]
    | none => []
  | .wb, pre, suf => if atWb pre suf then [(pre, suf, [])] else []
  | .nwla, pre, suf =>
    match suf.head? with
    | some c => if isWordChar c then [] else [(pre, suf, [])]
    | none => [(pre, suf, [])]
  | .cl p, pre, suf =>
    match suf with
    | [] => []
    | c :: cs => if p c then [(c :: pre, cs, [])] else []
  | .plus p, pre, suf => (runCands p 1 pre suf).map fun (a, b) => (a, b, [])
  | .rep2 p, pre, suf => (runCands p 2 pre suf).map fun (a, b) => (a, b, [])
  | .star p, pre, suf => (runCands p 0 pre suf).map fun (a, b) => (a, b, [])
  | .grp n r, pre, suf =>
    (mre ci r pre suf).map fun (pre', suf', caps) =>
      (pre', suf', caps ++ [(n, (pre'.take (pre'.length - pre.length)).reverse)])
  | .altL ss, pre, suf =>
    ss.flatMap fun s =>
      match litM ci s pre suf with
      | some (p, s') => [(p, s', [])]
      | none => []
  | .seqR rs, pre, suf => mseq ci rs pre suf

/-- Match a sequence of regexes, threading position and captures. -/
def mseq (ci : Bool) : List RE → List Char → List Char →
    List (List Char × List Char × Caps)
  | [], pre, suf => [(pre, suf, [])]
  | r :: rs, pre, suf =>
    (mre ci r pre suf).flatMap fun (pre', suf', caps) =>
      (mseq ci rs pre' suf').map fun (pre2, suf2, caps2) =>
        (pre2, suf2, caps ++ caps2)

end

/-- The preferred (Python-order first) match of `r` at a fixed position. -/
def matchAt (ci : Bool) (r : RE) (pre suf : List Char) :
    Option (List Char × List Char × Caps) :=
  (mre ci r pre suf).head?

/-- `pattern.search(s)`: does `r` match at some position of the text whose
already-scanned reversed prefix is `pre` and remainder is `suf`? -/
def searchAux (ci : Bool) (r : RE) : List Char → List Char → Bool
  | pre, [] =>
    match matchAt ci r pre [] with
    | some _ => true
    | none => false
  | pre, c :: cs =>
    match matchAt ci r pre (c :: cs) with
    | some _ => true
    | none => searchAux ci r (c :: pre) cs

/-- `re.compile(pat, flags).search(s) is not None`. -/
def reSearch (ci : Bool) (r : RE) (s : List Char) : Bool :=
  searchAux ci r [] s

/-- Replacement-template piece: literal text or a group backreference. -/
inductive Piece where
  | str (s : List Char)
  | ref (n : Nat)

/-- Instantiate a replacement template from the captures of a match.
(Every template in the source only references groups that are always
captured when its pattern matches, so the `[]` default is never hit
on the shipped rule tables.) -/
def instTmpl (tmpl : List Piece) (caps : Caps) : List Char :=
  tmpl.flatMap fun
    | .str s => s
    | .ref n => match caps.find? (fun kv => kv.1 = n) with
                | some kv => kv.2
                | none => []

/-- `pattern.sub(repl, s)` scanning loop: try a match at the current
position; on success emit the instantiated replacement and continue after
the matched span (the replacement is not rescanned, and `\b` context keeps
looking at the original characters); on failure copy one character.
No pattern in the source can match the empty string, but for totality a
zero-width match is treated as a non-match. -/
def reSubAux (ci : Bool) (r : RE) (tmpl : List Piece) :
    Nat → List Char → List Char → List Char
  | 0, _, suf => suf
  | fuel + 1, pre, suf =>
    match matchAt ci r pre suf with
    | some (pre', suf', caps) =>
      if suf'.length < suf.length then
        instTmpl tmpl caps ++ reSubAux ci r tmpl fuel pre' suf'
      else
        match suf with
        | [] => []
        | c :: cs => c :: reSubAux ci r tmpl fuel (c :: pre) cs
    | none =>
      match suf with
      | [] => []
      | c :: cs => c :: reSubAux ci r tmpl fuel (c :: pre) cs

/-- `re.compile(pat, flags).sub(repl, s)`.  (The fuel `s.length + 1`
always suffices: every loop iteration consumes at least one character.) -/
def reSub (ci : Bool) (r : RE) (tmpl : List Piece) (s : List Char) :
    List Char :=
  reSubAux ci r tmpl (s.length + 1) [] s

/-! ## Character classes used by the source patterns -/

/-- `[aeiou]` under `re.IGNORECASE`. -/
def isVowelCI (c : Char) : Bool :=
  let l := lowerC c
  l = 'a' || l = 'e' || l = 'i' || l = 'o' || l = 'u'

/-- `[.,!?;:]`. -/
def isPunct6 (c : Char) : Bool :=
  c = '.' || c = ',' || c = '!' || c = '?' || c = ';' || c = ':'

/-- `[.!?]` (sentence-terminal punctuation). -/
def isPunct3 (c : Char) : Bool :=
  c = '.' || c = '!' || c = '?'

/-- `[A-Za-z]`. -/
def isAsciiLetter (c : Char) : Bool :=
  ('a' ≤ c && c ≤ 'z') || ('A' ≤ c && c ≤ 'Z')

/-- `[A-Z]` (no IGNORECASE in `_final_cleanup`). -/
def isUpperAZ (c : Char) : Bool :=
  'A' ≤ c && c ≤ 'Z'

/-- `r'\b' + re.escape(key) + r'\b'` — the whole-token pattern used for
word-split and lexicon substitutions. -/
def keyRE (k : List Char) : RE := .seqR [.wb, .lit k, .wb]

/-! ## The rule table of `CorrectionRules._load_rules` -/

/-- `CorrectionRule` of `rules.py` with its pattern compiled into the
regex AST (the raw pattern text of each rule is recorded in a comment). -/
structure CorrectionRule where
  pattern : RE
  replacement : List Piece
  description : List Char
  language : String

/-- The 19 pattern rules of `_load_rules`, in source order. -/
def load_rules : List CorrectionRule :=
  [ -- r'\bnga\b' -> 'nga'
    ⟨keyRE "nga".toList, [.str "nga".toList], "Tagalog particle nga".toList, "tl"⟩,
    -- r'\bpo\b' -> 'po'
    ⟨keyRE "po".toList, [.str "po".toList], "Respectful particle po".toList, "tl"⟩,
    -- r'\bho\b(?!\w)' -> 'po'
    ⟨.seqR [.wb, .lit "ho".toList, .wb, .nwla], [.str "po".toList],
      "po often misheard as ho".toList, "tl"⟩,
    -- r'\bnang\s+(ay|ang|mga|sa)' -> r'ng \1'
    ⟨.seqR [.wb, .lit "nang".toList, .plus isPySpace,
        .grp 1 (.altL ["ay".toList, "ang".toList, "mga".toList, "sa".toList])],
      [.str "ng ".toList, .ref 1],
      "ng before common Tagalog words".toList, "tl"⟩,
    -- r'\byon\b' -> 'yon'
    ⟨keyRE "yon".toList, [.str "yon".toList], "Correct yon (that)".toList, "tl"⟩,
    -- r'\bkung\s+saan\b' -> 'kung saan'
    ⟨.seqR [.wb, .lit "kung".toList, .plus isPySpace, .lit "saan".toList, .wb],
      [.str "kung saan".toList], "kung saan (where)".toList, "tl"⟩,
    -- r'\ba\s+([aeiou])' -> r'an \1'
    ⟨.seqR [.wb, .lit "a".toList, .plus isPySpace, .grp 1 (.cl isVowelCI)],
      [.str "an ".toList, .ref 1], "a -> an before vowels".toList, "en"⟩,
    -- r'\bcannot\b' -> "can't"
    ⟨keyRE "cannot".toList, [.str "can\x27t".toList],
      "cannot -> can\x27t".toList, "en"⟩,
    -- r'\bwill not\b' -> "won't"
    ⟨keyRE "will not".toList, [.str "won\x27t".toList],
      "will not -> won\x27t".toList, "en"⟩,
    -- r'\bpunction\b' -> 'function'
    ⟨keyRE "punction".toList, [.str "function".toList],
      "P -> F confusion".toList, "both"⟩,
    -- r'\bpormula\b' -> 'formula'
    ⟨keyRE "pormula".toList, [.str "formula".toList],
      "P -> F confusion".toList, "both"⟩,
    -- r'\bbery\b' -> 'very'
    ⟨keyRE "bery".toList, [.str "very".toList],
      "B -> V confusion".toList, "both"⟩,
    -- r'\balue\b' -> 'value'
    ⟨keyRE "alue".toList, [.str "value".toList],
      "B -> V confusion".toList, "both"⟩,
    -- r'\bdat\b(?!\w)' -> 'that'
    ⟨.seqR [.wb, .lit "dat".toList, .wb, .nwla], [.str "that".toList],
      "D -> TH correction".toList, "both"⟩,
    -- r'\bdis\b(?!\w)' -> 'this'
    ⟨.seqR [.wb, .lit "dis".toList, .wb, .nwla], [.str "this".toList],
      "D -> TH correction".toList, "both"⟩,
    -- r'\bwit\b(?!\w)' -> 'with'
    ⟨.seqR [.wb, .lit "wit".toList, .wb, .nwla], [.str "with".toList],
      "T -> TH correction".toList, "both"⟩,
    -- r'\s{2,}' -> ' '
    ⟨.rep2 isPySpace, [.str " ".toList],
      "Multiple spaces -> single space".toList, "both"⟩,
    -- r'\s+([.,!?;:])' -> r'\1'
    ⟨.seqR [.plus isPySpace, .grp 1 (.cl isPunct6)], [.ref 1],
      "Remove space before punctuation".toList, "both"⟩,
    -- r'([.,!?;:])([A-Za-z])' -> r'\1 \2'
    ⟨.seqR [.grp 1 (.cl isPunct6), .grp 2 (.cl isAsciiLetter)],
      [.ref 1, .str " ".toList, .ref 2],
      "Add space after punctuation".toList, "both"⟩ ]

/-! ## Lexicon tables (`rules_tl.py` and `_load_common_errors`) -/

/-- Key/value entry of a lexicon table. -/
abbrev Entry := List Char × List Char

/-- Helper: build an entry from string literals. -/
def ent (k v : String) : Entry := (k.toList, v.toList)

/-- `TAGALOG_WORD_SPLITS` in its Python dict (insertion) order. -/
def tagalog_word_splits : List Entry :=
  [ ent "commustaka" "kumusta ka", ent "gamustaka" "kumusta ka",
    ent "kumustaka" "kumusta ka", ent "camustaka" "kumusta ka",
    ent "kamustaka" "kumusta ka",
    ent "magandangumaga" "magandang umaga",
    ent "magandanumaga" "magandang umaga",
    ent "magandanghapon" "magandang hapon",
    ent "magandanhapon" "magandang hapon",
    ent "magandanggabi" "magandang gabi",
    ent "magandangabi" "magandang gabi",
    ent "kumustana" "kumusta na", ent "anoba" "ano ba",
    ent "saanba" "saan ba", ent "sinoyan" "sino yan",
    ent "ayokona" "ayoko na",
    ent "takdangaralin" "takdang aralin",
    ent "takdangara lin" "takdang aralin",
    ent "pagaaralan" "pag-aaralan", ent "pagaaral" "pag-aaral",
    ent "pagsusulat" "pagsusulat",
    ent "kapo" "ka po", ent "napo" "na po",
    ent "yonpo" "yon po", ent "bapo" "ba po" ]

/-- `self.common_errors` after the constructor merges
`ALL_TAGALOG_CORRECTIONS` into `_load_common_errors()`: the 17 original
keys keep their insertion position (four of them — `anu`, `bat`, `pra`,
`pra sa` — are overwritten with identical values), and the remaining keys
of `TAGALOG_ASR_ERRORS` then `TAGALOG_CLASSROOM_TERMS` are appended in
their own insertion order. -/
def common_errors : List Entry :=
  [ ent "yung" "yung", ent "ung" "yung",
    ent "kung ano" "kung ano", ent "kung san" "kung saan",
    ent "pra" "para", ent "pra sa" "para sa",
    ent "gus2" "gusto", ent "bat" "bakit",
    ent "gonna" "going to", ent "wanna" "want to",
    ent "gotta" "got to", ent "kinda" "kind of",
    ent "sorta" "sort of",
    ent "di ba" "hindi ba", ent "dba" "hindi ba",
    ent "ano ba" "ano ba", ent "anu" "ano",
    -- appended from TAGALOG_ASR_ERRORS
    ent "ho" "po", ent "ano-ano" "ano ano", ent "saan-saan" "saan saan",
    ent "bkit" "bakit", ent "pano" "paano", ent "panu" "paano",
    ent "kelan" "kailan", ent "klan" "kailan",
    ent "sa sa" "sa", ent "ng ng" "ng",
    ent "na nga" "na nga", ent "nga ba" "nga ba",
    ent "lang lang" "lang", ent "naman naman" "naman",
    ent "ako ako" "ako", ent "ikaw ikaw" "ikaw",
    ent "gawa" "gawa", ent "gawin" "gawin",
    ent "kain" "kain", ent "kainin" "kainin",
    ent "yan yan" "yan", ent "yun" "yun", ent "yon" "yon",
    ent "klase" "klase", ent "aralin" "aralin", ent "leksyon" "leksyon",
    ent "guro" "guro", ent "estudyante" "estudyante",
    ent "iskolar" "iskolar", ent "tatlong" "tatlong",
    ent "apat na" "apat na",
    -- appended from TAGALOG_CLASSROOM_TERMS
    ent "matematika" "matematika", ent "algebra" "algebra",
    ent "geometry" "geometry", ent "kalkulasyon" "kalkulasyon",
    ent "numero" "numero", ent "siyensya" "siyensya",
    ent "kimika" "kimika", ent "pisika" "pisika",
    ent "biolo hiya" "biolohiya", ent "biolohiya" "biolohiya",
    ent "edukasyon" "edukasyon", ent "pag-aaral" "pag-aaral",
    ent "pag-aralan" "pag-aralan", ent "pagsusulit" "pagsusulit",
    ent "takdang-aralin" "takdang-aralin",
    ent "takdang aralin" "takdang aralin",
    ent "magsulat" "magsulat", ent "magbasa" "magbasa",
    ent "makinig" "makinig", ent "sagutin" "sagutin",
    ent "pakiulit" "pakiulit", ent "ulitin" "ulitin",
    ent "maintindihan" "maintindihan", ent "naintindihan" "naintindihan",
    ent "intindihin" "intindihin", ent "malinaw" "malinaw" ]

/-! ## The rule engine (`CorrectionRules.apply_rules`) -/

/-- `needle == hay[:len(needle)]` (exact, case-sensitive). -/
def swL : List Char → List Char → Bool
  | [], _ => true
  | _ :: _, [] => false
  | a :: as, b :: bs => a = b && swL as bs

/-- Python `needle in hay` substring test. -/
def hasSubL (needle : List Char) : List Char → Bool
  | [] => needle.isEmpty
  | c :: cs => swL needle (c :: cs) || hasSubL needle cs

/-- One lexicon-table entry applied to the running state, exactly as both
table loops of `rules.py` do it:
`if key in corrected.lower():` then compile `\b<key>\b` with IGNORECASE,
and only `if pattern.search(corrected):` substitute and record a change. -/
def tableStep (mkDesc : List Char → List Char → List Char)
    (st : List Char × List (List Char)) (kv : Entry) :
    List Char × List (List Char) :=
  if hasSubL kv.1 (lowerL st.1) then
    if reSearch true (keyRE kv.1) st.1 then
      (reSub true (keyRE kv.1) [.str kv.2] st.1, st.2 ++ [mkDesc kv.1 kv.2])
    else st
  else st

/-- Change description of the word-split pass:
`f"Split: '{concatenated}' -> '{split}'"`. -/
def splitDesc (k v : List Char) : List Char :=
  "Split: \x27".toList ++ k ++ "\x27 -> \x27".toList ++ v ++ "\x27".toList

/-- Change description of the common-error pass: `f"'{error}' -> '{correction}'"`. -/
def errDesc (k v : List Char) : List Char :=
  "\x27".toList ++ k ++ "\x27 -> \x27".toList ++ v ++ "\x27".toList

/-- `CorrectionRules._split_concatenated_words`. -/
def split_concatenated_words (text : List Char) :
    List Char × List (List Char) :=
  tagalog_word_splits.foldl (tableStep splitDesc) (text, [])

/-- The `should_apply` test of the pattern-rule loop in `apply_rules`. -/
def should_apply (language : String) (r : CorrectionRule) : Bool :=
  language = "both" || r.language = "both" || r.language = language ||
    language = "mixed"

/-- One pattern rule applied to the running state:
language gate, then `search`, then substitute; a change is recorded only
when the substitution actually changes the text. -/
def patternStep (language : String) (st : List Char × List (List Char))
    (r : CorrectionRule) : List Char × List (List Char) :=
  if should_apply language r then
    if reSearch true r.pattern st.1 then
      let newText := reSub true r.pattern r.replacement st.1
      if newText ≠ st.1 then (newText, st.2 ++ [r.description]) else st
    else st
  else st

/-- `CorrectionRules._capitalize_sentences`: the parts produced by
`re.split(r'([.!?]+\s+)', text)` — fragments at even indices, separators
(a nonempty `[.!?]` run followed by a nonempty whitespace run) at odd
indices.  State machine: `cur` is the reversed fragment accumulated so
far, `punct` the reversed pending `[.!?]` run, `ws` the reversed pending
whitespace run following it (the pending runs are flushed into the
fragment when the separator pattern fails to complete). -/
def capSplitGo (cur punct ws : List Char) : List Char → List (List Char)
  | [] =>
    if ws.isEmpty then [(punct ++ cur).reverse]
    else [cur.reverse, (ws ++ punct).reverse, []]
  | c :: cs =>
    if !ws.isEmpty then
      -- inside the `\s+` part of a separator
      if isPySpace c then capSplitGo cur punct (c :: ws) cs
      else
        -- separator complete: emit fragment and separator, restart on `c`
        cur.reverse :: (ws ++ punct).reverse ::
          (if isPunct3 c then capSplitGo [] [c] [] cs
           else capSplitGo [c] [] [] cs)
    else if !punct.isEmpty then
      -- inside the `[.!?]+` part of a candidate separator
      if isPunct3 c then capSplitGo cur (c :: punct) [] cs
      else if isPySpace c then capSplitGo cur punct [c] cs
      else capSplitGo (c :: (punct ++ cur)) [] [] cs
    else
      if isPunct3 c then capSplitGo cur [c] [] cs
      else capSplitGo (c :: cur) [] [] cs

/-- Capitalize the first character of a fragment, as
`part[0].upper() + part[1:] if len(part) > 1 else part.upper()`. -/
def capFrag : List Char → List Char
  | [] => []
  | c :: cs => upperC c :: cs

/-- `CorrectionRules._capitalize_sentences`. -/
def capitalize_sentences (s : List Char) : List Char :=
  ((capSplitGo [] [] [] s).mapIdx fun i part =>
    if i % 2 = 0 then capFrag part else part).join

/-- `CorrectionRules.apply_rules`: word-splitting pass, common-error pass,
language-gated pattern-rule pass, sentence capitalization, whitespace
cleanup.  Returns the corrected text and the ordered change descriptions. -/
def apply_rules (text : List Char) (language : String) :
    List Char × List (List Char) :=
  let st1 := split_concatenated_words text
  let st2 := common_errors.foldl (tableStep errDesc) st1
  let st3 := load_rules.foldl (patternStep language) st2
  (wsCleanup (capitalize_sentences st3.1), st3.2)

/-! ## `difflib.SequenceMatcher` over token lists

`_find_differences` diffs whitespace-token lists.  The embedding below
implements `find_longest_match` / `get_matching_blocks` / `get_opcodes`
for sequences without junk (difflib's autojunk heuristic only activates
for sequences of 200 or more elements; the model assumes the no-junk
case).  Python's post-DP junk extension loops are no-ops when the junk
set is empty, and the sort-and-merge of adjacent blocks only coalesces
`equal` opcodes, which `_find_differences` ignores, so both are omitted. -/

/-- Ascending positions of `x` in `b` (difflib's `b2j[x]`). -/
def positionsOf (x : List Char) (b : List (List Char)) : List Nat :=
  (b.enum.filter (fun p => p.2 = x)).map (·.1)

/-- The inner `for j in b2j[a[i]]` loop of `find_longest_match`: thread the
new `j2len` row and the running best `(i, j, size)`. -/
def flmRow (j2len : Nat → Nat) (i : Nat) :
    List Nat → (Nat → Nat) → (Nat × Nat × Nat) → (Nat → Nat) × (Nat × Nat × Nat)
  | [], nj, best => (nj, best)
  | j :: js, nj, best =>
    let k := (if j = 0 then 0 else j2len (j - 1)) + 1
    let nj' := fun j' => if j' = j then k else nj j'
    let best' := if k > best.2.2 then (i + 1 - k, j + 1 - k, k) else best
    flmRow j2len i js nj' best'

/-- The outer `for i in range(alo, ahi)` loop of `find_longest_match`. -/
def flmGo (a : List (List Char)) (b : List (List Char)) (blo bhi : Nat) :
    List Nat → (Nat → Nat) → (Nat × Nat × Nat) → Nat × Nat × Nat
  | [], _, best => best
  | i :: is, j2len, best =>
    match a.get? i with
    | none => flmGo a b blo bhi is (fun _ => 0) best
    | some x =>
      let js := ((positionsOf x b).filter (fun j => blo ≤ j)).takeWhile
        (fun j => j < bhi)
      flmGo a b blo bhi is (flmRow j2len i js (fun _ => 0) best).1
        (flmRow j2len i js (fun _ => 0) best).2

/-- `SequenceMatcher.find_longest_match` (no junk). -/
def find_longest_match (a b : List (List Char)) (alo ahi blo bhi : Nat) :
    Nat × Nat × Nat :=
  flmGo a b blo bhi (List.range' alo (ahi - alo)) (fun _ => 0) (alo, blo, 0)

/-- Recursive block collection of `get_matching_blocks` (fuel-indexed; the
fuel passed by `get_matching_blocks` always suffices). -/
def mblocks (a b : List (List Char)) :
    Nat → Nat → Nat → Nat → Nat → List (Nat × Nat × Nat)
  | 0, _, _, _, _ => []
  | fuel + 1, alo, ahi, blo, bhi =>
    let ijk := find_longest_match a b alo ahi blo bhi
    if ijk.2.2 = 0 then []
    else
      mblocks a b fuel alo ijk.1 blo ijk.2.1 ++
        ijk :: mblocks a b fuel (ijk.1 + ijk.2.2) ahi (ijk.2.1 + ijk.2.2) bhi

/-- `SequenceMatcher.get_matching_blocks`, including the terminating
sentinel `(len(a), len(b), 0)`. -/
def get_matching_blocks (a b : List (List Char)) : List (Nat × Nat × Nat) :=
  mblocks a b (a.length + b.length + 1) 0 a.length 0 b.length ++
    [(a.length, b.length, 0)]

/-- Opcode tags of `get_opcodes`. -/
inductive Tag where
  | replace
  | delete
  | insert
  | equal
deriving DecidableEq

/-- One opcode `(tag, i1, i2, j1, j2)`. -/
structure Opcode where
  tag : Tag
  i1 : Nat
  i2 : Nat
  j1 : Nat
  j2 : Nat
deriving DecidableEq

/-- The pointer-threading loop of `get_opcodes`. -/
def opcodesGo : Nat → Nat → List (Nat × Nat × Nat) → List Opcode
  | _, _, [] => []
  | i, j, (ai, bj, k) :: rest =>
    (if i < ai ∧ j < bj then [⟨.replace, i, ai, j, bj⟩]
     else if i < ai then [⟨.delete, i, ai, j, bj⟩]
     else if j < bj then [⟨.insert, i, ai, j, bj⟩]
     else []) ++
    (if k ≠ 0 then [⟨.equal, ai, ai + k, bj, bj + k⟩] else []) ++
    opcodesGo (ai + k) (bj + k) rest

/-- `SequenceMatcher.get_opcodes`. -/
def get_opcodes (a b : List (List Char)) : List Opcode :=
  opcodesGo 0 0 (get_matching_blocks a b)

/-- `' '.join(words[i1:i2])`. -/
def joinSpace : List (List Char) → List Char
  | [] => []
  | [w] => w
  | w :: ws => w ++ ' ' :: joinSpace ws

/-- `' '.join(words[i1:i2])` for a token range. -/
def sliceJoin (ws : List (List Char)) (i1 i2 : Nat) : List Char :=
  joinSpace ((ws.drop i1).take (i2 - i1))

/-! ## Data model (`models.py`) -/

/-- `ErrorType`. -/
inductive ErrorType where
  | spelling
  | grammar
  | punctuation
  | capitalization
  | word_choice
  | phonetic
  | code_switch
deriving DecidableEq

/-- `CorrectionLevel`. -/
inductive CorrectionLevel where
  | light
  | standard
  | aggressive
deriving DecidableEq

/-- `CorrectionChange` (confidences as exact rationals). -/
structure CorrectionChange where
  original : List Char
  corrected : List Char
  error_type : ErrorType
  confidence : ℚ
  description : List Char
deriving DecidableEq

/-- `CorrectionConfig`.  `language_hint = none` models Python `None`;
`use_ml` corresponds to `config.use_ml`. -/
structure CorrectionConfig where
  level : CorrectionLevel := .standard
  use_rules : Bool := true
  use_ml : Bool := true
  language_hint : Option String := none
  preserve_code_switching : Bool := true
  min_confidence : ℚ := mkRat 7 10
deriving DecidableEq

/-- `CorrectionResult`.  `processing_time` (wall-clock) is not modelled. -/
structure CorrectionResult where
  original_text : List Char
  corrected_text : List Char
  changes : List CorrectionChange
  confidence_score : ℚ
  method : String
  language : String
deriving DecidableEq

/-! ## The orchestrator (`ErrorCorrector`) -/

/-- Round-half-to-even to an integer (Python `round` on exact values).
(`Rat.floor` is used rather than `⌊·⌋` so the function kernel-evaluates;
`Rat.floor_def'` identifies the two.) -/
def rhe (q : ℚ) : ℤ :=
  let f := q.floor
  let r := qsub q (mkRat f 1)
  if r < mkRat 1 2 then f
  else if mkRat 1 2 < r then f + 1
  else if f % 2 = 0 then f else f + 1

/-- Python `round(x, 3)` on exact rational values. -/
def round3 (q : ℚ) : ℚ := mkRat (rhe (qmul q (mkRat 1000 1))) 1000

/-- The Tagalog marker set of `_detect_language`. -/
def tagalog_markers : List (List Char) :=
  ["ang", "ng", "mga", "sa", "na", "ay", "at", "ka", "ko", "mo",
   "po", "nga", "ba", "lang", "naman"].map String.toList

/-- The English marker set of `_detect_language`. -/
def english_markers : List (List Char) :=
  ["the", "is", "are", "was", "were", "have", "has", "been",
   "will", "and", "or", "but", "this", "that"].map String.toList

/-- `ErrorCorrector._detect_language`: lower-case, whitespace-tokenize,
count marker hits, compare with the asymmetric 1.5x threshold. -/
def detect_language (text : List Char) : String :=
  let words := pySplit (lowerL text)
  let tl_count := words.countP (fun w => tagalog_markers.contains w)
  let en_count := words.countP (fun w => english_markers.contains w)
  -- `tl_count > en_count * 1.5` (exact: the counts are integers)
  if mkRat (3 * (en_count : ℤ)) 2 < mkRat (tl_count : ℤ) 1 then "tl"
  else if mkRat (3 * (tl_count : ℤ)) 2 < mkRat (en_count : ℤ) 1 then "en"
  else "mixed"

/-- `ErrorCorrector._classify_error_type`: substring dispatch over the
lower-cased change description. -/
def classify_error_type (description : List Char) : ErrorType :=
  let d := lowerL description
  if hasSubL "punctuation".toList d || hasSubL "space".toList d then .punctuation
  else if hasSubL "capital".toList d then .capitalization
  else if hasSubL "confusion".toList d || hasSubL "phonetic".toList d then .phonetic
  else if hasSubL "grammar".toList d || hasSubL "article".toList d then .grammar
  else if hasSubL "spell".toList d then .spelling
  else .word_choice

/-- `ErrorCorrector._find_differences`: whitespace-tokenize both texts,
diff, and turn each `replace`/`delete`/`insert` opcode into a change. -/
def find_differences (original corrected : List Char) :
    List CorrectionChange :=
  let ow := pySplit original
  let cw := pySplit corrected
  (get_opcodes ow cw).flatMap fun op =>
    match op.tag with
    | .replace =>
      [⟨sliceJoin ow op.i1 op.i2, sliceJoin cw op.j1 op.j2, .word_choice, mkRat 17 20,
        "ML: \x27".toList ++ sliceJoin ow op.i1 op.i2 ++
          "\x27 → \x27".toList ++ sliceJoin cw op.j1 op.j2 ++ "\x27".toList⟩]
    | .delete =>
      [⟨sliceJoin ow op.i1 op.i2, [], .grammar, mkRat 4 5,
        "ML: Removed \x27".toList ++ sliceJoin ow op.i1 op.i2 ++ "\x27".toList⟩]
    | .insert =>
      [⟨[], sliceJoin cw op.j1 op.j2, .grammar, mkRat 4 5,
        "ML: Added \x27".toList ++ sliceJoin cw op.j1 op.j2 ++ "\x27".toList⟩]
    | .equal => []

/-- The `([.!?])\s*([A-Z])` pattern of `_final_cleanup` (no IGNORECASE). -/
def finalPunctRE : RE :=
  .seqR [.grp 1 (.cl isPunct3), .star isPySpace, .grp 2 (.cl isUpperAZ)]

/-- `ErrorCorrector._final_cleanup`: collapse whitespace, trim, normalize
the space after sentence punctuation before a capital letter. -/
def final_cleanup (text : List Char) : List Char :=
  reSub false finalPunctRE [.ref 1, .str " ".toList, .ref 2]
    (pyStrip (collapseWs text))

/-- `ErrorCorrector._create_ml_prompt`. -/
def create_ml_prompt (text : List Char) (language : String)
    (level : CorrectionLevel) : List Char :=
  let base :=
    if language = "tl" then "Correct the following Tagalog text: "
    else if language = "en" then "Correct the following English text: "
    else "Correct the following Filipino-English code-switched text: "
  let qual :=
    match level with
    | .light => "(fix only obvious errors) "
    | .aggressive => "(fix all errors and improve fluency) "
    | .standard => ""
  base.toList ++ qual.toList ++ text

/-- The generative collaborator: gets the prompt, returns a rewrite and a
confidence, or raises (`Except.error`). -/
abbrev Collab := List Char → Except Unit (List Char × ℚ)

/-- `ErrorCorrector._ml_correct`: build the prompt, invoke the
collaborator; any raised exception is caught and turned into
`(text, 0.0)`; a returned confidence is capped at 1. -/
def ml_correct (collab : Collab) (text : List Char) (language : String)
    (level : CorrectionLevel) : List Char × ℚ :=
  match collab (create_ml_prompt text language level) with
  | .error _ => (text, 0)
  | .ok (corrected, confidence) => (corrected, qmin confidence (mkRat 1 1))

/-- Step 1 of `correct`: `config.language_hint` if truthy (Python `if not
config.language_hint` treats `None` and `""` as absent), else detection. -/
def resolve_language (config : CorrectionConfig) (text : List Char) : String :=
  match config.language_hint with
  | some h => if h = "" then detect_language text else h
  | none => detect_language text

/-- Step 2 of `correct`: the rule engine, when `config.use_rules`. -/
def rules_stage (config : CorrectionConfig) (text : List Char)
    (language : String) : List Char × List (List Char) :=
  if config.use_rules then apply_rules text language else (text, [])

/-- Wrapping of one rule-engine change description into a
`CorrectionChange` (empty spans, confidence 1.0). -/
def mk_rule_change (d : List Char) : CorrectionChange :=
  ⟨[], [], classify_error_type d, mkRat 1 1, d⟩

/-- Step 3 of `correct`: the generative pass, when configured and loaded;
the rewrite is adopted (with its token diff as change records) only when
its confidence reaches `config.min_confidence` and it differs from the
current text. -/
def ml_stage (selfUseMl : Bool) (collab : Collab) (config : CorrectionConfig)
    (language : String) (t1 : List Char) :
    List Char × List CorrectionChange :=
  if config.use_ml && selfUseMl then
    let ml := ml_correct collab t1 language config.level
    if ml.2 ≥ config.min_confidence ∧ ml.1 ≠ t1 then
      (ml.1, find_differences t1 ml.1)
    else (t1, [])
  else (t1, [])

/-- Aggregate confidence of `correct` (before rounding). -/
def confidence_of (changes : List CorrectionChange)
    (corrected_text text : List Char) : ℚ :=
  if changes.isEmpty then
    (if corrected_text = text then mkRat 1 1 else mkRat 4 5)
  else qdiv (qsum (changes.map (·.confidence))) (mkRat (changes.length : ℤ) 1)

/-- The `method` field of `correct`:
`"rules" if not self.use_ml else ("ml" if not config.use_rules else "hybrid")`. -/
def method_of (selfUseMl : Bool) (config : CorrectionConfig) : String :=
  if !selfUseMl then "rules"
  else if !config.use_rules then "ml" else "hybrid"

/-- `ErrorCorrector.correct`.  `selfUseMl` models `self.use_ml` (true iff
the ML model was loaded; the constructor guarantees
`self.use_ml → self.ml_model is not None`). -/
def correct (selfUseMl : Bool) (collab : Collab) (text : List Char)
    (config : CorrectionConfig) : CorrectionResult :=
  let language := resolve_language config text
  let rulesOut := rules_stage config text language
  let ruleChanges := rulesOut.2.map mk_rule_change
  let afterMl := ml_stage selfUseMl collab config language rulesOut.1
  let changes := ruleChanges ++ afterMl.2
  let corrected_text := final_cleanup afterMl.1
  ⟨text, corrected_text, changes,
    round3 (confidence_of changes corrected_text text),
    method_of selfUseMl config, language⟩

/-! ## Concrete scenario inputs used by witnesses and counterexamples -/

/-- A text on which exactly one rule fires (`bery` → `very`). -/
def demo_text : List Char := "bery good stuff indeed".toList

/-- A collaborator returning a confident rewrite (one replace, one delete
against the rules output). -/
def collab_nice : Collab := fun _ => .ok ("Very nice stuff".toList, mkRat 9 10)

/-- A collaborator returning confidence 0.5 (below the default 0.7). -/
def collab_half : Collab := fun _ => .ok ("whatever".toList, mkRat 1 2)

/-- A collaborator that always raises. -/
def collab_fail : Collab := fun _ => .error ()

/-! ## Claim C1: how `method` is determined -/

/--
Claim C1 (amended): the `method` field of `correct()` does *not* depend on
which sources actually contributed; it is exactly
`"rules" if not self.use_ml else ("ml" if not config.use_rules else
"hybrid")`, regardless of whether the generative rewrite was merged or
discarded.
-/
theorem claim_C1_amended (selfUseMl : Bool) (collab : Collab)
    (text : List Char) (config : CorrectionConfig) :
    (correct selfUseMl collab text config).method =
      (if !selfUseMl then "rules"
       else if !config.use_rules then "ml" else "hybrid") := rfl

/--
Claim C1 counterexample: with `use_generative = true` (and the model
loaded), a generative pass returning confidence 0.5 against the default
threshold 0.7 is discarded — the corrected text is exactly the rules-only
output and only the one rule change exists — yet `method` is `"hybrid"`,
not `"rules"` as the claim requires.
-/
theorem claim_C1_counterexample :
    ({} : CorrectionConfig).use_ml = true ∧
    ({} : CorrectionConfig).min_confidence = mkRat 7 10 ∧
    (correct true collab_half demo_text {}).corrected_text =
      "Very good stuff indeed".toList ∧
    (correct true collab_half demo_text {}).changes.length = 1 ∧
    (correct true collab_half demo_text {}).method = "hybrid" ∧
    (correct true collab_half demo_text {}).method ≠ "rules" := by
  refine ⟨rfl, rfl, by decide, by decide, rfl, by decide⟩

/-! ## Claim C3: the language classifier -/

theorem detect_thresh_iff (m n : ℕ) :
    (mkRat (3 * (n : ℤ)) 2 < mkRat (m : ℤ) 1) ↔ 3 * n < 2 * m := by
  rw [Rat.mkRat_eq_div, Rat.mkRat_eq_div]
  push_cast
  rw [div_lt_div_iff (by norm_num) (by norm_num)]
  constructor
  · intro h
    have h2 : ((3 * n : ℕ) : ℚ) < ((2 * m : ℕ) : ℚ) := by push_cast; linarith
    exact_mod_cast h2
  · intro h
    have h2 : ((3 * n : ℕ) : ℚ) < ((2 * m : ℕ) : ℚ) := by exact_mod_cast h
    push_cast at h2
    linarith

theorem q_thresh_iff (m n : ℕ) : ((m : ℚ) > (n : ℚ) * 1.5) ↔ 3 * n < 2 * m := by
  have h15 : (1.5 : ℚ) = 3 / 2 := by norm_num
  rw [gt_iff_lt, h15]
  constructor
  · intro h
    have h2 : ((3 * n : ℕ) : ℚ) < ((2 * m : ℕ) : ℚ) := by push_cast; linarith
    exact_mod_cast h2
  · intro h
    have h2 : ((3 * n : ℕ) : ℚ) < ((2 * m : ℕ) : ℚ) := by exact_mod_cast h
    push_cast at h2
    linarith

/--
Claim C3: `_detect_language` tokenizes on whitespace, case-folds, counts
tokens in the fixed marker sets, and returns `"tl"` iff the Tagalog count
exceeds 1.5 × the English count, `"en"` iff the English count exceeds
1.5 × the Tagalog count, and `"mixed"` otherwise; the empty text
classifies as `"mixed"`.
-/
theorem claim_C3 (text : List Char) :
    (detect_language text = "tl" ↔
      ((pySplit (lowerL text)).countP (fun w => tagalog_markers.contains w) : ℚ) >
        ((pySplit (lowerL text)).countP (fun w => english_markers.contains w) : ℚ) * 1.5) ∧
    (detect_language text = "en" ↔
      ((pySplit (lowerL text)).countP (fun w => english_markers.contains w) : ℚ) >
        ((pySplit (lowerL text)).countP (fun w => tagalog_markers.contains w) : ℚ) * 1.5) ∧
    (detect_language text = "mixed" ↔
      ¬(((pySplit (lowerL text)).countP (fun w => tagalog_markers.contains w) : ℚ) >
          ((pySplit (lowerL text)).countP (fun w => english_markers.contains w) : ℚ) * 1.5) ∧
      ¬(((pySplit (lowerL text)).countP (fun w => english_markers.contains w) : ℚ) >
          ((pySplit (lowerL text)).countP (fun w => tagalog_markers.contains w) : ℚ) * 1.5)) ∧
    detect_language [] = "mixed" := by
  rw [q_thresh_iff, q_thresh_iff]
  unfold detect_language
  dsimp only
  refine ⟨?_, ?_, ?_, by decide⟩ <;> split_ifs with h1 h2
  · rw [detect_thresh_iff] at h1
    exact iff_of_true rfl h1
  · rw [detect_thresh_iff] at h1
    exact iff_of_false (by decide) h1
  · rw [detect_thresh_iff] at h1
    exact iff_of_false (by decide) h1
  · rw [detect_thresh_iff] at h1
    exact iff_of_false (by decide) (by omega)
  · rw [detect_thresh_iff] at h2
    exact iff_of_true rfl h2
  · rw [detect_thresh_iff] at h2
    exact iff_of_false (by decide) h2
  · rw [detect_thresh_iff] at h1
    exact iff_of_false (by decide) (fun hc => hc.1 h1)
  · rw [detect_thresh_iff] at h2
    exact iff_of_false (by decide) (fun hc => hc.2 h2)
  · rw [detect_thresh_iff] at h1
    rw [detect_thresh_iff] at h2
    exact iff_of_true rfl ⟨h1, h2⟩

/-! ## Claim C4: language gating of the pattern-rule pass -/

theorem foldl_skip_filter {α β : Type} (f : β → α → β) (p : α → Bool)
    (hid : ∀ st x, p x = false → f st x = st) :
    ∀ (l : List α) (st : β), l.foldl f st = (l.filter p).foldl f st := by
  intro l
  induction l with
  | nil => intro st; rfl
  | cons x xs ih =>
    intro st
    by_cases hx : p x
    · rw [List.foldl_cons, List.filter_cons_of_pos hx, List.foldl_cons, ih]
    · rw [List.foldl_cons, hid st x (by simpa using hx),
        List.filter_cons_of_neg (by simpa using hx), ih]

/--
Claim C4: in the pattern-rule pass with `language_label = "en"` (English),
a rule tagged `language = "tl"` (Tagalog) never fires — it is the identity
on the running state, and the whole pass equals the pass over the table
with the Tagalog-tagged rules removed — while with
`language_label = "mixed"` every rule passes the eligibility gate.
-/
theorem claim_C4 :
    (∀ (st : List Char × List (List Char)) (r : CorrectionRule),
      r.language = "tl" → patternStep "en" st r = st) ∧
    (∀ st, load_rules.foldl (patternStep "en") st =
      (load_rules.filter fun r => !(r.language == "tl")).foldl
        (patternStep "en") st) ∧
    (∀ r : CorrectionRule, should_apply "mixed" r = true) := by
  have hstep : ∀ (st : List Char × List (List Char)) (r : CorrectionRule),
      r.language = "tl" → patternStep "en" st r = st := by
    intro st r hl
    unfold patternStep should_apply
    rw [hl]
    simp
  refine ⟨hstep, ?_, ?_⟩
  · intro st
    exact foldl_skip_filter (patternStep "en") (fun r => !(r.language == "tl"))
      (fun st r h => hstep st r (by simpa using h)) load_rules st
  · intro r
    unfold should_apply
    simp

/--
Claim C4 witness: a concrete Tagalog-tagged rule does not fire under
`"en"` even when its pattern matches the text, and every shipped rule is
eligible under `"mixed"`.
-/
theorem claim_C4_witness :
    patternStep "en" ("nga po kayo".toList, [])
      ⟨keyRE "nga".toList, [.str "talaga".toList], "demo".toList, "tl"⟩ =
      ("nga po kayo".toList, []) ∧
    load_rules.all (fun r => should_apply "mixed" r) = true :=
  ⟨claim_C4.1 ("nga po kayo".toList, []) ⟨_, _, _, "tl"⟩ rfl,
    List.all_eq_true.mpr fun r _ => claim_C4.2.2 r⟩

/-! ## Claim C5: a raising generative collaborator is harmless -/

/--
Claim C5: if the generative collaborator raises on every prompt, then
`correct()` does not raise and returns exactly the result it returns with
the generative pass disabled (`use_ml := false`): same corrected text,
same change list, same confidence, same method, same language.
-/
theorem claim_C5 (selfUseMl : Bool) (collab : Collab) (text : List Char)
    (config : CorrectionConfig) (hfail : ∀ p, collab p = .error ()) :
    correct selfUseMl collab text config =
      correct selfUseMl collab text { config with use_ml := false } := by
  have hlang : resolve_language { config with use_ml := false } text =
      resolve_language config text := rfl
  have hrules : rules_stage { config with use_ml := false } text =
      rules_stage config text := rfl
  have hml : ∀ (language : String) (t1 : List Char),
      ml_stage selfUseMl collab config language t1 = (t1, []) := by
    intro language t1
    unfold ml_stage
    by_cases hc : config.use_ml && selfUseMl
    · rw [if_pos hc]
      have : ml_correct collab t1 language config.level = (t1, 0) := by
        unfold ml_correct
        rw [hfail]
      rw [this]
      simp
    · rw [if_neg hc]
  have hml' : ∀ (language : String) (t1 : List Char),
      ml_stage selfUseMl collab { config with use_ml := false } language t1 =
        (t1, []) := by
    intro language t1
    unfold ml_stage
    simp
  unfold correct
  dsimp only
  rw [hlang, hrules, hml, hml']
  rfl

/--
Claim C5 witness: at a concrete text, config and always-raising
collaborator, the result equals the `use_ml := false` result.
-/
theorem claim_C5_witness :
    correct true collab_fail demo_text {} =
      correct true collab_fail demo_text
        { ({} : CorrectionConfig) with use_ml := false } :=
  claim_C5 true collab_fail demo_text {} (fun _ => rfl)

/-! ## Rounding and averaging facts (claims C6, C7) -/

theorem qfloor_eq (q : ℚ) : q.floor = ⌊q⌋ := by
  rw [Rat.floor_def', Rat.floor_def]

theorem rhe_bounds (q : ℚ) (h0 : 0 ≤ q) (h1 : q ≤ 1000) :
    0 ≤ rhe q ∧ rhe q ≤ 1000 := by
  unfold rhe
  dsimp only
  rw [qfloor_eq]
  have hsub : qsub q (mkRat ⌊q⌋ 1) = q - (⌊q⌋ : ℚ) := by
    rw [qsub_eq, Rat.mkRat_one]
  have hhalf : (mkRat 1 2 : ℚ) = 1 / 2 := by
    rw [Rat.mkRat_eq_div]; norm_num
  rw [hsub, hhalf]
  have hf0 : (0 : ℤ) ≤ ⌊q⌋ := Int.floor_nonneg.mpr h0
  have hfle : ⌊q⌋ ≤ (1000 : ℤ) := by
    have := Int.floor_le_floor (α := ℚ) h1
    rwa [show ⌊(1000 : ℚ)⌋ = (1000 : ℤ) by norm_num] at this
  have hflq : (⌊q⌋ : ℚ) ≤ q := Int.floor_le q
  split_ifs with hr1 hr2
  · exact ⟨hf0, hfle⟩
  · refine ⟨by omega, ?_⟩
    have h999 : ⌊q⌋ ≤ 999 := by
      by_contra hgt
      have hge : (1000 : ℤ) ≤ ⌊q⌋ := by omega
      have : (1000 : ℚ) ≤ (⌊q⌋ : ℚ) := by exact_mod_cast hge
      linarith
    omega
  · exact ⟨hf0, hfle⟩
  · refine ⟨by omega, ?_⟩
    have hr : q - (⌊q⌋ : ℚ) = 1 / 2 := le_antisymm (not_lt.mp hr2) (not_lt.mp hr1)
    have h999 : ⌊q⌋ ≤ 999 := by
      by_contra hgt
      have hge : (1000 : ℤ) ≤ ⌊q⌋ := by omega
      have : (1000 : ℚ) ≤ (⌊q⌋ : ℚ) := by exact_mod_cast hge
      linarith
    omega

theorem round3_eq (q : ℚ) : round3 q = ((rhe (q * 1000) : ℤ) : ℚ) / 1000 := by
  unfold round3
  rw [Rat.mkRat_eq_div]
  have : qmul q (mkRat 1000 1) = q * 1000 := by
    rw [qmul_eq, Rat.mkRat_one]
    norm_num
  rw [this]
  norm_num

theorem round3_bounds (q : ℚ) (h0 : 0 ≤ q) (h1 : q ≤ 1) :
    0 ≤ round3 q ∧ round3 q ≤ 1 := by
  rw [round3_eq]
  have hb := rhe_bounds (q * 1000) (by linarith) (by linarith)
  constructor
  · apply div_nonneg _ (by norm_num)
    exact_mod_cast hb.1
  · rw [div_le_one (by norm_num)]
    exact_mod_cast hb.2

theorem avg_bounds (l : List ℚ) (hne : l ≠ [])
    (hb : ∀ x ∈ l, 0 ≤ x ∧ x ≤ 1) :
    0 ≤ l.sum / (l.length : ℚ) ∧ l.sum / (l.length : ℚ) ≤ 1 := by
  have hlen : (0 : ℚ) < (l.length : ℚ) := by
    exact_mod_cast List.length_pos.mpr hne
  have hsum0 : 0 ≤ l.sum := List.sum_nonneg fun x hx => (hb x hx).1
  have hsum1 : l.sum ≤ (l.length : ℚ) := by
    have := List.sum_le_card_nsmul l 1 fun x hx => (hb x hx).2
    rwa [nsmul_eq_mul, mul_one] at this
  exact ⟨div_nonneg hsum0 hlen.le, (div_le_one hlen).mpr hsum1⟩

/-- Every change emitted by `_find_differences` has confidence 0.85 or
0.8. -/
theorem find_differences_conf (a b : List Char) (c : CorrectionChange)
    (hc : c ∈ find_differences a b) :
    c.confidence = mkRat 17 20 ∨ c.confidence = mkRat 4 5 := by
  unfold find_differences at hc
  rw [List.mem_flatMap] at hc
  obtain ⟨op, _, hcop⟩ := hc
  rcases op with ⟨tag, i1, i2, j1, j2⟩
  cases tag <;> simp_all

/-- Every change emitted by the generative stage comes from
`_find_differences`. -/
theorem ml_stage_changes_mem (b : Bool) (collab : Collab)
    (config : CorrectionConfig) (language : String) (t1 : List Char)
    (c : CorrectionChange) (hc : c ∈ (ml_stage b collab config language t1).2) :
    ∃ x y, c ∈ find_differences x y := by
  unfold ml_stage at hc
  dsimp only at hc
  split_ifs at hc
  · exact ⟨_, _, hc⟩
  · simp at hc
  · simp at hc

/-! ## Claim C7: confidence bounds -/

/--
Claim C7: every `CorrectionChange.confidence` in the changes list of the
result of `correct()` lies in `[0, 1]`, and the aggregate
`confidence_score` lies in `[0, 1]`, for every text, config, collaborator
and model state.
-/
theorem claim_C7 (b : Bool) (collab : Collab) (text : List Char)
    (config : CorrectionConfig) :
    (∀ c ∈ (correct b collab text config).changes,
      0 ≤ c.confidence ∧ c.confidence ≤ 1) ∧
    0 ≤ (correct b collab text config).confidence_score ∧
    (correct b collab text config).confidence_score ≤ 1 := by
  have hm17 : (mkRat 17 20 : ℚ) = 17 / 20 := by rw [Rat.mkRat_eq_div]; norm_num
  have hm45 : (mkRat 4 5 : ℚ) = 4 / 5 := by rw [Rat.mkRat_eq_div]; norm_num
  have hm11 : (mkRat 1 1 : ℚ) = 1 := by rw [Rat.mkRat_one]; norm_num
  have hconf : ∀ c ∈ (correct b collab text config).changes,
      0 ≤ c.confidence ∧ c.confidence ≤ 1 := by
    intro c hc
    have hc' : c ∈
        (rules_stage config text (resolve_language config text)).2.map
          mk_rule_change ++
        (ml_stage b collab config (resolve_language config text)
          (rules_stage config text (resolve_language config text)).1).2 := hc
    rcases List.mem_append.mp hc' with h | h
    · rcases List.mem_map.mp h with ⟨d, _, rfl⟩
      unfold mk_rule_change
      rw [show (⟨[], [], classify_error_type d, mkRat 1 1, d⟩ :
          CorrectionChange).confidence = mkRat 1 1 from rfl, hm11]
      norm_num
    · rcases ml_stage_changes_mem b collab config _ _ c h with ⟨x, y, hxy⟩
      rcases find_differences_conf x y c hxy with h85 | h80
      · rw [h85, hm17]; norm_num
      · rw [h80, hm45]; norm_num
  refine ⟨hconf, ?_⟩
  have hscore : (correct b collab text config).confidence_score =
      round3 (confidence_of (correct b collab text config).changes
        (correct b collab text config).corrected_text text) := rfl
  rw [hscore]
  unfold confidence_of
  split_ifs with hemp ht
  · exact round3_bounds _ (by rw [hm11]; norm_num) (by rw [hm11])
  · exact round3_bounds _ (by rw [hm45]; norm_num) (by rw [hm45]; norm_num)
  · set l := (correct b collab text config).changes.map (·.confidence) with hl
    have hql : qdiv (qsum l)
        (mkRat ((correct b collab text config).changes.length : ℤ) 1) =
        l.sum / (l.length : ℚ) := by
      rw [qdiv_eq, qsum_eq, Rat.mkRat_one, hl, List.length_map]
      norm_num
    rw [hql]
    have hne : l ≠ [] := by
      rw [hl]
      simp only [ne_eq, List.map_eq_nil_iff]
      exact fun hcontra => by simp [hcontra] at hemp
    have hmem : ∀ x ∈ l, 0 ≤ x ∧ x ≤ 1 := by
      intro x hx
      rcases List.mem_map.mp hx with ⟨c, hcmem, rfl⟩
      exact hconf c hcmem
    have hb2 := avg_bounds l hne hmem
    exact round3_bounds _ hb2.1 hb2.2

/-! ## Claim C6: the aggregate confidence -/

/--
Claim C6 (amended): with at least one change record, the result's
`confidence_score` is the arithmetic mean of the change confidences
*rounded to three decimal places* (`round(confidence, 3)`); with no
change records it is 1.0 when the corrected text equals the input and 0.8
otherwise.
-/
theorem claim_C6_amended (b : Bool) (collab : Collab) (text : List Char)
    (config : CorrectionConfig) :
    ((correct b collab text config).changes ≠ [] →
      (correct b collab text config).confidence_score =
        round3 (((correct b collab text config).changes.map
            (·.confidence)).sum /
          ((correct b collab text config).changes.length : ℚ))) ∧
    ((correct b collab text config).changes = [] →
      (correct b collab text config).confidence_score =
        (if (correct b collab text config).corrected_text = text
         then 1 else 4/5)) := by
  have hscore : (correct b collab text config).confidence_score =
      round3 (confidence_of (correct b collab text config).changes
        (correct b collab text config).corrected_text text) := rfl
  constructor
  · intro hne
    rw [hscore]
    unfold confidence_of
    rw [if_neg (by simpa using hne)]
    congr 1
    rw [qdiv_eq, qsum_eq, Rat.mkRat_one]
    push_cast
    ring
  · intro hemp
    rw [hscore]
    unfold confidence_of
    rw [if_pos (by simpa using hemp)]
    split_ifs with ht
    · rw [show round3 (mkRat 1 1) = mkRat 1 1 from by decide, Rat.mkRat_one]
      norm_num
    · rw [show round3 (mkRat 4 5) = mkRat 4 5 from by decide,
        Rat.mkRat_eq_div]
      norm_num

/--
Claim C6 counterexample: on a concrete run whose change confidences are
`[1.0, 0.85, 0.8]` the mean is `53/60 = 0.88333…`, but the reported
`confidence_score` is the rounded `0.883 ≠ 53/60` — the score is not the
arithmetic mean as the claim states it.
-/
theorem claim_C6_counterexample :
    (correct true collab_nice demo_text {}).changes.map (·.confidence) =
      [mkRat 1 1, mkRat 17 20, mkRat 4 5] ∧
    (correct true collab_nice demo_text {}).confidence_score ≠
      ((correct true collab_nice demo_text {}).changes.map
          (·.confidence)).sum /
        ((correct true collab_nice demo_text {}).changes.length : ℚ) := by
  refine ⟨by decide, ?_⟩
  have hmap : (correct true collab_nice demo_text {}).changes.map
      (·.confidence) = [mkRat 1 1, mkRat 17 20, mkRat 4 5] := by decide
  have hlen : (correct true collab_nice demo_text {}).changes.length = 3 := by
    decide
  have hscore : (correct true collab_nice demo_text {}).confidence_score =
      mkRat 883 1000 := by decide
  rw [hmap, hlen, hscore]
  rw [Rat.mkRat_eq_div, Rat.mkRat_one, Rat.mkRat_eq_div, Rat.mkRat_eq_div]
  norm_num

/--
Claim C6 witness (for the amended theorem): on the same concrete run the
score equals the rounded mean, and on a no-change run it is 1.0.
-/
theorem claim_C6_witness :
    (correct true collab_nice demo_text {}).confidence_score =
      round3 (((correct true collab_nice demo_text {}).changes.map
          (·.confidence)).sum /
        ((correct true collab_nice demo_text {}).changes.length : ℚ)) :=
  (claim_C6_amended true collab_nice demo_text {}).1 (by decide)

/-! ## Claim C2: behaviour on a malformed rule table

In the source, `apply_rules` compiles each eligible rule's pattern inside
the loop (`pattern = re.compile(rule.pattern, re.IGNORECASE)`) with *no*
`try`/`except` anywhere in the method: a pattern that fails to compile
raises `re.error` out of `apply_rules`.  `RawRule` models a rule whose
compilation may fail (`Except.error` standing for the raised exception),
and `apply_rulesE` is `apply_rules` with that exception propagated
faithfully: compilation is only attempted for rules passing the language
gate, and an uncaught exception aborts the whole call, discarding the
partial text. -/

/-- A rule as stored in the table: its pattern may fail to compile. -/
structure RawRule where
  pattern : Except Unit RE
  replacement : List Piece
  description : List Char
  language : String

/-- The language gate, as in `apply_rules` (tested before compiling). -/
def should_applyE (language : String) (r : RawRule) : Bool :=
  language = "both" || r.language = "both" || r.language = language ||
    language = "mixed"

/-- One iteration of the pattern-rule loop with fallible compilation. -/
def patternStepE (language : String) (st : List Char × List (List Char))
    (r : RawRule) : Except Unit (List Char × List (List Char)) :=
  if should_applyE language r then
    match r.pattern with
    | .error e => .error e
    | .ok p =>
      if reSearch true p st.1 then
        let newText := reSub true p r.replacement st.1
        if newText ≠ st.1 then .ok (newText, st.2 ++ [r.description])
        else .ok st
      else .ok st
  else .ok st

/-- The pattern-rule loop with exception propagation. -/
def patternPassE (language : String) :
    List RawRule → List Char × List (List Char) →
      Except Unit (List Char × List (List Char))
  | [], st => .ok st
  | r :: rs, st =>
    match patternStepE language st r with
    | .error e => .error e
    | .ok st' => patternPassE language rs st'

/-- `apply_rules` over a raw rule table, propagating a compilation
failure as the raised exception. -/
def apply_rulesE (rules : List RawRule) (text : List Char)
    (language : String) :
    Except Unit (List Char × List (List Char)) :=
  let st1 := split_concatenated_words text
  let st2 := common_errors.foldl (tableStep errDesc) st1
  match patternPassE language rules st2 with
  | .error e => .error e
  | .ok st3 => .ok (wsCleanup (capitalize_sentences st3.1), st3.2)

/-- A shipped (always-compiling) rule viewed as a raw rule. -/
def toRaw (r : CorrectionRule) : RawRule :=
  ⟨.ok r.pattern, r.replacement, r.description, r.language⟩

/-- A rule whose pattern fails to compile, eligible for every language. -/
def bad_rule : RawRule := ⟨.error (), [], "malformed".toList, "both"⟩

theorem patternPassE_ok (language : String) :
    ∀ (rs : List CorrectionRule) (st : List Char × List (List Char)),
      patternPassE language (rs.map toRaw) st =
        .ok (rs.foldl (patternStep language) st) := by
  intro rs
  induction rs with
  | nil => intro st; rfl
  | cons r rs ih =>
    intro st
    have hstep : patternStepE language st (toRaw r) =
        .ok (patternStep language st r) := by
      unfold patternStepE patternStep should_applyE should_apply toRaw
      dsimp only
      split_ifs <;> rfl
    rw [List.map_cons, List.foldl_cons]
    simp only [patternPassE, hstep]
    exact ih (patternStep language st r)

/--
Claim C2 (amended): `apply_rules` contains no malformed-rule handling —
a rule whose pattern fails to compile raises out of the pass, aborting
the whole correction (see the counterexample) — but every pattern in the
shipped rule table compiles, so on the shipped table the fallible pass
never raises and agrees with `apply_rules` on every text and language.
-/
theorem claim_C2_amended (text : List Char) (language : String) :
    apply_rulesE (load_rules.map toRaw) text language =
      .ok (apply_rules text language) := by
  unfold apply_rulesE apply_rules
  dsimp only
  rw [patternPassE_ok]

/--
Claim C2 counterexample: a table containing one malformed rule makes
`apply_rules` raise (the whole call aborts with the exception) instead of
skipping that single rule and continuing as the claim states.
-/
theorem claim_C2_counterexample :
    apply_rulesE (load_rules.map toRaw ++ [bad_rule])
      "dis is a example".toList "en" = .error () := by
  rfl

/-! ## Whitespace-cleanup idempotence (claim C9) -/

/-- First character (if any) is not whitespace. -/
def headNonSp (l : List Char) : Bool :=
  match l.head? with
  | some c => !isPySpace c
  | none => true

/-- Every whitespace character is `' '` and is followed by a
non-whitespace character. -/
def okRun : List Char → Bool
  | [] => true
  | c :: cs => (!isPySpace c || (c = ' ' && headNonSp cs)) && okRun cs

theorem collapseGo_headNonSp (s : List Char) :
    headNonSp (collapseGo true s) = true := by
  induction s with
  | nil => rfl
  | cons c cs ih =>
    unfold collapseGo
    by_cases hc : isPySpace c
    · simp only [hc, if_true]
      exact ih
    · simp only [hc]
      simp [headNonSp, hc]

theorem okRun_collapseGo (s : List Char) : ∀ b, okRun (collapseGo b s) = true := by
  induction s with
  | nil => intro b; rfl
  | cons c cs ih =>
    intro b
    by_cases hc : isPySpace c
    · cases b
      · have hgo : collapseGo false (c :: cs) = ' ' :: collapseGo true cs := by
          simp [collapseGo, hc]
        rw [hgo]
        unfold okRun
        rw [collapseGo_headNonSp, ih true]
        simp [isPySpace]
      · have hgo : collapseGo true (c :: cs) = collapseGo true cs := by
          simp [collapseGo, hc]
        rw [hgo]
        exact ih true
    · have hgo : collapseGo b (c :: cs) = c :: collapseGo false cs := by
        simp [collapseGo, hc]
      rw [hgo]
      unfold okRun
      rw [ih false]
      simp [hc]

theorem okRun_cons {c : Char} {cs : List Char}
    (h : okRun (c :: cs) = true) :
    (!isPySpace c || (c = ' ' && headNonSp cs)) = true ∧ okRun cs = true := by
  unfold okRun at h
  rw [Bool.and_eq_true] at h
  exact h

theorem okRun_dropWhile {l : List Char} (p : Char → Bool)
    (h : okRun l = true) : okRun (l.dropWhile p) = true := by
  induction l with
  | nil => exact h
  | cons c cs ih =>
    rw [List.dropWhile_cons]
    by_cases hc : p c
    · simp only [hc, if_true]
      exact ih (okRun_cons h).2
    · simp only [hc]
      simpa using h

/-- `okRun` as a per-element condition plus a `Chain'` on adjacent pairs. -/
theorem okRun_iff_chain (l : List Char) :
    okRun l = true ↔
      (∀ c ∈ l, (!isPySpace c || c = ' ') = true) ∧
      List.Chain' (fun a b => ¬(isPySpace a = true ∧ isPySpace b = true)) l := by
  induction l with
  | nil => simp [okRun]
  | cons c cs ih =>
    rw [List.chain'_cons']
    unfold okRun
    rw [Bool.and_eq_true, ih]
    constructor
    · rintro ⟨hc, hall, hch⟩
      refine ⟨?_, ⟨?_, hch⟩⟩
      · intro d hd
        rcases List.mem_cons.mp hd with rfl | hd'
        · rw [Bool.or_eq_true] at hc
          rcases hc with h | h
          · simp [h]
          · rw [Bool.and_eq_true] at h
            simp [h.1]
        · exact hall d hd'
      · intro y hy
        rintro ⟨hspc, hspy⟩
        rw [Bool.or_eq_true] at hc
        rcases hc with h | h
        · simp [hspc] at h
        · rw [Bool.and_eq_true] at h
          obtain ⟨_, hns⟩ := h
          unfold headNonSp at hns
          cases hhd : cs.head? with
          | none => rw [hhd] at hy; exact absurd hy (by simp)
          | some z =>
            rw [hhd] at hy hns
            simp only [Option.mem_def, Option.some.injEq] at hy
            subst hy
            simp [hspy] at hns
    · rintro ⟨hall, hhd, hch⟩
      refine ⟨?_, fun d hd => hall d (List.mem_cons_of_mem c hd), hch⟩
      by_cases hspc : isPySpace c
      · have hc' := hall c (List.mem_cons_self c cs)
        rw [hspc] at hc'
        simp only [Bool.not_true, Bool.false_or] at hc'
        rw [hspc]
        simp only [Bool.not_true, Bool.false_or, hc', Bool.true_and]
        unfold headNonSp
        cases hhd' : cs.head? with
        | none => rfl
        | some z =>
          have := hhd z (by rw [hhd']; rfl)
          by_cases hz : isPySpace z
          · exact absurd ⟨hspc, hz⟩ this
          · simp [hz]
      · simp [hspc]

theorem okRun_reverse (l : List Char) :
    okRun l.reverse = true ↔ okRun l = true := by
  rw [okRun_iff_chain, okRun_iff_chain, List.chain'_reverse]
  constructor
  · rintro ⟨hall, hch⟩
    refine ⟨fun c hc => hall c (List.mem_reverse.mpr hc), ?_⟩
    exact hch.imp fun a b h => fun ⟨ha, hb⟩ => h ⟨hb, ha⟩
  · rintro ⟨hall, hch⟩
    refine ⟨fun c hc => hall c (List.mem_reverse.mp hc), ?_⟩
    exact hch.imp fun a b h => fun ⟨ha, hb⟩ => h ⟨hb, ha⟩

theorem dropWhile_headNonSp (l : List Char) :
    headNonSp (l.dropWhile isPySpace) = true := by
  induction l with
  | nil => rfl
  | cons c cs ih =>
    rw [List.dropWhile_cons]
    by_cases hc : isPySpace c
    · simpa [hc] using ih
    · simp [hc, headNonSp]

theorem dropWhile_of_headNonSp {l : List Char} (h : headNonSp l = true) :
    l.dropWhile isPySpace = l := by
  cases l with
  | nil => rfl
  | cons c cs =>
    unfold headNonSp at h
    simp only [List.head?_cons] at h
    rw [List.dropWhile_cons, if_neg (by simpa using h)]

theorem dropWhile_getLast? {l : List Char} (p : Char → Bool)
    (h : l.dropWhile p ≠ []) : (l.dropWhile p).getLast? = l.getLast? := by
  induction l with
  | nil => simp at h
  | cons c cs ih =>
    rw [List.dropWhile_cons] at h ⊢
    by_cases hc : p c
    · rw [if_pos hc] at h ⊢
      rw [ih h]
      have hcs : cs ≠ [] := by
        intro hnil
        rw [hnil] at h
        simp [List.dropWhile] at h
      cases cs with
      | nil => exact absurd rfl hcs
      | cons d ds => simp [List.getLast?_cons_cons]
    · rw [if_neg hc]

theorem okRun_pyStrip {u : List Char} (h : okRun u = true) :
    okRun (pyStrip u) = true := by
  unfold pyStrip
  have h1 : okRun (u.dropWhile isPySpace) = true := okRun_dropWhile _ h
  have h2 : okRun (u.dropWhile isPySpace).reverse = true :=
    (okRun_reverse _).mpr h1
  have h3 : okRun ((u.dropWhile isPySpace).reverse.dropWhile isPySpace) = true :=
    okRun_dropWhile _ h2
  exact (okRun_reverse _).mpr h3

theorem collapseGo_eq_self :
    ∀ u, okRun u = true →
      collapseGo false u = u ∧ (headNonSp u = true → collapseGo true u = u) := by
  intro u
  induction u with
  | nil => intro _; exact ⟨rfl, fun _ => rfl⟩
  | cons c cs ih =>
    intro h
    obtain ⟨hc, hcs⟩ := okRun_cons h
    have ihcs := ih hcs
    by_cases hsp : isPySpace c
    · have hc2 : (decide (c = ' ') && headNonSp cs) = true := by
        rw [Bool.or_eq_true] at hc
        rcases hc with h' | h'
        · rw [hsp] at h'; simp at h'
        · exact h'
      rw [Bool.and_eq_true] at hc2
      obtain ⟨hceq, hhd⟩ := hc2
      constructor
      · have hgo : collapseGo false (c :: cs) = ' ' :: collapseGo true cs := by
          simp [collapseGo, hsp]
        rw [hgo, ihcs.2 hhd]
        rw [show c = ' ' from by simpa using hceq]
      · intro habs
        unfold headNonSp at habs
        simp only [List.head?_cons] at habs
        rw [hsp] at habs
        simp at habs
    · constructor
      · unfold collapseGo
        rw [if_neg hsp, ihcs.1]
      · intro _
        unfold collapseGo
        rw [if_neg hsp, ihcs.1]

theorem pyStrip_idem (l : List Char) : pyStrip (pyStrip l) = pyStrip l := by
  by_cases hnil : (l.dropWhile isPySpace).reverse.dropWhile isPySpace = []
  · unfold pyStrip
    rw [hnil]
    rfl
  · have hhead_t : headNonSp ((l.dropWhile isPySpace).reverse.dropWhile
        isPySpace).reverse = true := by
      unfold headNonSp
      rw [List.head?_reverse, dropWhile_getLast? isPySpace hnil,
        List.getLast?_reverse]
      have := dropWhile_headNonSp l
      unfold headNonSp at this
      exact this
    have hhead_d2 : headNonSp ((l.dropWhile isPySpace).reverse.dropWhile
        isPySpace) = true := dropWhile_headNonSp _
    show pyStrip (pyStrip l) = pyStrip l
    unfold pyStrip
    rw [dropWhile_of_headNonSp hhead_t, List.reverse_reverse,
      dropWhile_of_headNonSp hhead_d2]

/-- The whitespace cleanup of the rule engine is idempotent. -/
theorem wsCleanup_idem (s : List Char) :
    wsCleanup (wsCleanup s) = wsCleanup s := by
  unfold wsCleanup collapseWs
  rw [(collapseGo_eq_self _ (okRun_pyStrip (okRun_collapseGo s false))).1]
  exact pyStrip_idem _

/-! ## Claim C9: idempotence of the rule engine -/

/-- "No rule-triggering tokens": none of the three substitution passes
(word splits, common errors, pattern rules) changes the text or records a
change on `s`. -/
def noTriggers (language : String) (s : List Char) : Bool :=
  decide (split_concatenated_words s = (s, [])) &&
  decide (common_errors.foldl (tableStep errDesc) (s, []) = (s, [])) &&
  decide (load_rules.foldl (patternStep language) (s, []) = (s, []))

/-- The table passes thread an arbitrary starting state; a pass that is
the identity from `(s, [])` is the identity from any `(s, chs)`. -/
theorem tableFold_shift (f : List Char → List Char → List Char)
    (tbl : List Entry) :
    ∀ (s : List Char) (chs : List (List Char)),
      tbl.foldl (tableStep f) (s, chs) =
        ((tbl.foldl (tableStep f) (s, [])).1,
          chs ++ (tbl.foldl (tableStep f) (s, [])).2) := by
  induction tbl with
  | nil => intro s chs; simp
  | cons kv tbl ih =>
    intro s chs
    rw [List.foldl_cons, List.foldl_cons]
    have hstep : ∀ chs', tableStep f (s, chs') kv =
        ((tableStep f (s, []) kv).1, chs' ++ (tableStep f (s, []) kv).2) := by
      intro chs'
      unfold tableStep
      dsimp only
      split_ifs <;> simp
    rcases htk : tableStep f (s, []) kv with ⟨t2, d⟩
    rw [hstep chs, hstep [], htk]
    simp only [List.nil_append]
    rw [ih t2 (chs ++ d), ih t2 d]
    simp

/-- Same shifting fact for the pattern-rule pass. -/
theorem patternFold_shift (language : String) (rules : List CorrectionRule) :
    ∀ (s : List Char) (chs : List (List Char)),
      rules.foldl (patternStep language) (s, chs) =
        ((rules.foldl (patternStep language) (s, [])).1,
          chs ++ (rules.foldl (patternStep language) (s, [])).2) := by
  induction rules with
  | nil => intro s chs; simp
  | cons r rules ih =>
    intro s chs
    rw [List.foldl_cons, List.foldl_cons]
    have hstep : ∀ chs', patternStep language (s, chs') r =
        ((patternStep language (s, []) r).1,
          chs' ++ (patternStep language (s, []) r).2) := by
      intro chs'
      unfold patternStep
      dsimp only
      split_ifs <;> simp
    rcases htk : patternStep language (s, []) r with ⟨t2, d⟩
    rw [hstep chs, hstep [], htk]
    simp only [List.nil_append]
    rw [ih t2 (chs ++ d), ih t2 d]
    simp

/--
Claim C9 (amended): for a text whose first-pass output `s` contains no
rule-triggering tokens, a second application of the rule engine returns
`s` unchanged *provided the sentence-capitalization pass also leaves `s`
unchanged*; the unrestricted claim fails (see the counterexample) because
capitalization runs before whitespace cleanup, so a first-pass output can
still gain a capital letter on the second pass.
-/
theorem claim_C9_amended (text : List Char) (language : String)
    (h1 : noTriggers language (apply_rules text language).1 = true)
    (h2 : capitalize_sentences (apply_rules text language).1 =
      (apply_rules text language).1) :
    (apply_rules (apply_rules text language).1 language).1 =
      (apply_rules text language).1 := by
  unfold noTriggers at h1
  rw [Bool.and_eq_true, Bool.and_eq_true] at h1
  obtain ⟨⟨ha, hb⟩, hc⟩ := h1
  have hsplit := of_decide_eq_true ha
  have hcommon := of_decide_eq_true hb
  have hpat := of_decide_eq_true hc
  set s := (apply_rules text language).1 with hs
  have hrun : apply_rules s language =
      (wsCleanup (capitalize_sentences s), []) := by
    unfold apply_rules
    dsimp only
    rw [show split_concatenated_words s = (s, []) from hsplit, hcommon, hpat]
  rw [hrun]
  dsimp only
  rw [h2]
  have himg : s = wsCleanup (capitalize_sentences
      ((load_rules.foldl (patternStep language)
        (common_errors.foldl (tableStep errDesc)
          (split_concatenated_words text))).1)) := rfl
  rw [himg]
  exact wsCleanup_idem _

/-- The C9 counterexample text: a leading space hides the first sentence
from the capitalization pass on the first run. -/
def c9_text : List Char := " hi there. ok".toList

/--
Claim C9 counterexample: `apply_rules " hi there. ok" = "hi there. Ok"`,
whose tokens trigger no rule, yet applying the engine again yields
`"Hi there. Ok" ≠ "hi there. Ok"` — `apply(apply(text)) ≠ apply(text)`
even though the first-pass output contains no rule-triggering tokens.
-/
theorem claim_C9_counterexample :
    noTriggers "both" (apply_rules c9_text "both").1 = true ∧
    (apply_rules c9_text "both").1 = "hi there. Ok".toList ∧
    (apply_rules (apply_rules c9_text "both").1 "both").1 =
      "Hi there. Ok".toList ∧
    (apply_rules (apply_rules c9_text "both").1 "both").1 ≠
      (apply_rules c9_text "both").1 := by
  refine ⟨by decide, by decide, by decide, by decide⟩

/--
Claim C9 witness (for the amended theorem): on a text that is already
fully normalized the second application changes nothing.
-/
theorem claim_C9_witness :
    (apply_rules (apply_rules "Hi there. Ok".toList "both").1 "both").1 =
      (apply_rules "Hi there. Ok".toList "both").1 :=
  claim_C9_amended "Hi there. Ok".toList "both" (by decide) (by decide)

/-! ## Claim C8: word-boundary safety of the lexicon passes -/

/-- Positional specification of a whole-token occurrence: the key appears
(case-insensitively) at position `i` of `text` with a `\b` word boundary
on each side. -/
def delimOccAt (key text : List Char) (i : Nat) : Bool :=
  decide (i + key.length ≤ text.length) &&
  decide (lowerL ((text.drop i).take key.length) = lowerL key) &&
  atWb (text.take i).reverse (text.drop i) &&
  atWb (text.take (i + key.length)).reverse (text.drop (i + key.length))

/-- Does `key` occur anywhere in `text` as a boundary-delimited token? -/
def hasDelimOcc (key text : List Char) : Bool :=
  (List.range (text.length + 1)).any fun i => delimOccAt key text i

theorem litM_sound (k : List Char) :
    ∀ (pre suf pre2 suf2 : List Char),
      litM true k pre suf = some (pre2, suf2) →
      ∃ tk, suf = tk ++ suf2 ∧ tk.length = k.length ∧
        lowerL tk = lowerL k ∧ pre2 = tk.reverse ++ pre := by
  induction k with
  | nil =>
    intro pre suf pre2 suf2 h
    unfold litM at h
    injection h with h
    injection h with h1 h2
    exact ⟨[], by simp [h2], rfl, rfl, by simp [h1]⟩
  | cons p ps ih =>
    intro pre suf pre2 suf2 h
    cases suf with
    | nil => exact absurd h (by simp [litM])
    | cons c cs =>
      simp only [litM] at h
      by_cases hch : chEq true p c
      · rw [if_pos hch] at h
        obtain ⟨tk, h1, h2, h3, h4⟩ := ih (c :: pre) cs pre2 suf2 h
        have hlc : lowerC p = lowerC c := by simpa [chEq] using hch
        refine ⟨c :: tk, by simp [h1], by simp [h2], ?_, ?_⟩
        · unfold lowerL at h3 ⊢
          simp only [List.map_cons]
          rw [hlc.symm]
          exact congrArg (lowerC p :: ·) h3
        · rw [h4, List.reverse_cons, List.append_assoc]
          rfl
      · rw [if_neg hch] at h
        exact absurd h (by simp)

theorem matchAt_keyRE (k pre suf : List Char)
    (x : List Char × List Char × Caps)
    (h : matchAt true (keyRE k) pre suf = some x) :
    atWb pre suf = true ∧
      ∃ tk suf2, suf = tk ++ suf2 ∧ tk.length = k.length ∧
        lowerL tk = lowerL k ∧ atWb (tk.reverse ++ pre) suf2 = true := by
  unfold matchAt keyRE at h
  by_cases hwb : atWb pre suf
  · refine ⟨hwb, ?_⟩
    rcases hlit : litM true k pre suf with _ | ⟨p2, s2⟩
    · simp [mre, mseq, hwb, hlit] at h
    · by_cases hwb2 : atWb p2 s2
      · obtain ⟨tk, h1, h2, h3, h4⟩ := litM_sound k pre suf p2 s2 hlit
        exact ⟨tk, s2, h1, h2, h3, h4 ▸ hwb2⟩
      · simp [mre, mseq, hwb, hlit, hwb2] at h
  · simp [mre, mseq, hwb] at h

theorem delim_of_matchAt (k pre suf : List Char)
    (x : List Char × List Char × Caps)
    (h : matchAt true (keyRE k) pre suf = some x) :
    delimOccAt k (pre.reverse ++ suf) pre.length = true := by
  obtain ⟨hwb, tk, suf2, hsuf, hlen, hlow, hwb2⟩ := matchAt_keyRE k pre suf x h
  have hplen : pre.reverse.length = pre.length := List.length_reverse pre
  have htake : (pre.reverse ++ suf).take pre.length = pre.reverse := by
    rw [← hplen]
    exact List.take_left _ _
  have hdrop : (pre.reverse ++ suf).drop pre.length = suf := by
    rw [← hplen]
    exact List.drop_left _ _
  have htake2 : (pre.reverse ++ suf).take (pre.length + k.length) =
      pre.reverse ++ tk := by
    rw [← hplen, hsuf, ← hlen, List.take_append, List.take_left]
  have hdrop2 : (pre.reverse ++ suf).drop (pre.length + k.length) = suf2 := by
    rw [← hplen, hsuf, ← hlen, List.drop_append, List.drop_left]
  have hlenle : pre.length + k.length ≤ (pre.reverse ++ suf).length := by
    rw [List.length_append, hplen, hsuf, List.length_append, ← hlen]
    omega
  unfold delimOccAt
  rw [htake, hdrop, htake2, hdrop2, List.reverse_reverse,
    List.reverse_append, List.reverse_reverse]
  simp only [Bool.and_eq_true, decide_eq_true_eq]
  refine ⟨⟨⟨hlenle, ?_⟩, hwb⟩, hwb2⟩
  rw [hsuf, ← hlen, List.take_left]
  exact hlow

theorem searchAux_keyRE_sound (k : List Char) :
    ∀ (suf pre : List Char),
      searchAux true (keyRE k) pre suf = true →
      ∃ i, delimOccAt k (pre.reverse ++ suf) i = true := by
  intro suf
  induction suf with
  | nil =>
    intro pre h
    cases hma : matchAt true (keyRE k) pre [] with
    | some x => exact ⟨pre.length, delim_of_matchAt k pre [] x hma⟩
    | none =>
      simp only [searchAux, hma] at h
      exact absurd h (by simp)
  | cons c cs ih =>
    intro pre h
    cases hma : matchAt true (keyRE k) pre (c :: cs) with
    | some x => exact ⟨pre.length, delim_of_matchAt k pre (c :: cs) x hma⟩
    | none =>
      simp only [searchAux, hma] at h
      obtain ⟨i, hi⟩ := ih (c :: pre) h
      refine ⟨i, ?_⟩
      rw [List.reverse_cons, List.append_assoc] at hi
      exact hi

theorem reSearch_keyRE_false (k text : List Char)
    (h : hasDelimOcc k text = false) :
    reSearch true (keyRE k) text = false := by
  by_contra hcon
  have htrue : reSearch true (keyRE k) text = true := by
    cases hx : reSearch true (keyRE k) text
    · exact absurd hx hcon
    · rfl
  obtain ⟨i, hi⟩ := searchAux_keyRE_sound k text [] (by simpa [reSearch] using htrue)
  simp only [List.reverse_nil, List.nil_append] at hi
  have hile : i ≤ text.length := by
    have := hi
    unfold delimOccAt at this
    simp only [Bool.and_eq_true, decide_eq_true_eq] at this
    omega
  have : hasDelimOcc k text = true := by
    unfold hasDelimOcc
    rw [List.any_eq_true]
    exact ⟨i, List.mem_range.mpr (by omega), hi⟩
  rw [this] at h
  exact absurd h (by simp)

theorem tableStep_id (mk : List Char → List Char → List Char)
    (text : List Char) (chs : List (List Char)) (kv : Entry)
    (h : hasDelimOcc kv.1 text = false) :
    tableStep mk (text, chs) kv = (text, chs) := by
  unfold tableStep
  dsimp only
  by_cases hsub : hasSubL kv.1 (lowerL text)
  · rw [if_pos hsub, reSearch_keyRE_false kv.1 text h]
    simp
  · rw [if_neg hsub]

/--
Claim C8: the word-split pass and the lexical-substitution pass replace a
lexicon key only where it occurs as a whole word-boundary-delimited token
(case-insensitively): on a text in which no key of the respective table
has a boundary-delimited occurrence, each pass leaves the text unchanged
and records no change — a key occurring only inside a larger token (such
as `bat` inside `combat`) never fires.
-/
theorem claim_C8 (text : List Char) :
    ((∀ kv ∈ tagalog_word_splits, hasDelimOcc kv.1 text = false) →
      split_concatenated_words text = (text, [])) ∧
    ((∀ kv ∈ common_errors, hasDelimOcc kv.1 text = false) →
      common_errors.foldl (tableStep errDesc) (text, []) = (text, [])) := by
  have hfold : ∀ (mk : List Char → List Char → List Char) (tbl : List Entry),
      (∀ kv ∈ tbl, hasDelimOcc kv.1 text = false) →
      ∀ chs, tbl.foldl (tableStep mk) (text, chs) = (text, chs) := by
    intro mk tbl
    induction tbl with
    | nil => intro _ chs; rfl
    | cons kv tbl ih =>
      intro hall chs
      rw [List.foldl_cons,
        tableStep_id mk text chs kv (hall kv (List.mem_cons_self kv tbl))]
      exact ih (fun e he => hall e (List.mem_cons_of_mem kv he)) chs
  exact ⟨fun h => hfold splitDesc tagalog_word_splits h [],
    fun h => hfold errDesc common_errors h []⟩

/--
Claim C8 witness: on `"they met in combat yesterday"` — which contains
the substring `bat` (a lexicon key mapped to `bakit`) only inside the
larger token `combat` — no key of either table has a delimited
occurrence, and both passes leave the text unchanged.
-/
theorem claim_C8_witness :
    (∀ kv ∈ tagalog_word_splits,
      hasDelimOcc kv.1 "they met in combat yesterday".toList = false) ∧
    (∀ kv ∈ common_errors,
      hasDelimOcc kv.1 "they met in combat yesterday".toList = false) ∧
    ("bat".toList, "bakit".toList) ∈ common_errors ∧
    hasSubL "bat".toList (lowerL "they met in combat yesterday".toList) = true ∧
    split_concatenated_words "they met in combat yesterday".toList =
      ("they met in combat yesterday".toList, []) ∧
    common_errors.foldl (tableStep errDesc)
        ("they met in combat yesterday".toList, []) =
      ("they met in combat yesterday".toList, []) := by
  refine ⟨by decide, by decide, by decide, by decide, ?_, ?_⟩
  · exact (claim_C8 "they met in combat yesterday".toList).1 (by decide)
  · exact (claim_C8 "they met in combat yesterday".toList).2 (by decide)

/-! ## Claim C10: provenance and shape of the change records

The diff-side argument: every `replace`/`delete`/`insert` opcode emitted
by `get_opcodes` covers a nonempty in-range token span, because the
matching blocks produced by `find_longest_match`/`get_matching_blocks`
form an in-order chain inside the sequence bounds. -/

theorem pySplitGo_ne :
    ∀ (s cur : List Char) (t : List Char), t ∈ pySplitGo cur s → t ≠ [] := by
  intro s
  induction s with
  | nil =>
    intro cur t ht
    unfold pySplitGo at ht
    by_cases hc : cur.isEmpty
    · rw [if_pos hc] at ht
      exact absurd ht (by simp)
    · rw [if_neg hc] at ht
      rcases List.mem_singleton.mp ht with rfl
      have hcur : cur ≠ [] := by simpa [List.isEmpty_iff] using hc
      exact fun hr => hcur (List.reverse_eq_nil_iff.mp hr)
  | cons c cs ih =>
    intro cur t ht
    unfold pySplitGo at ht
    by_cases hsp : isPySpace c
    · rw [if_pos hsp] at ht
      by_cases hc : cur.isEmpty
      · rw [if_pos hc] at ht
        exact ih [] t ht
      · rw [if_neg hc] at ht
        rcases List.mem_cons.mp ht with rfl | ht'
        · have hcur : cur ≠ [] := by simpa [List.isEmpty_iff] using hc
          exact fun hr => hcur (List.reverse_eq_nil_iff.mp hr)
        · exact ih [] t ht'
    · rw [if_neg hsp] at ht
      exact ih (c :: cur) t ht

theorem pySplit_ne (s : List Char) : ∀ t ∈ pySplit s, t ≠ [] :=
  fun t ht => pySplitGo_ne s [] t ht

theorem joinSpace_ne (w : List Char) (ws : List (List Char)) (hw : w ≠ []) :
    joinSpace (w :: ws) ≠ [] := by
  cases ws with
  | nil => simpa [joinSpace] using hw
  | cons v vs => simp [joinSpace]

theorem sliceJoin_ne (ws : List (List Char)) (i1 i2 : Nat)
    (h1 : i1 < i2) (h2 : i1 < ws.length) (hts : ∀ t ∈ ws, t ≠ []) :
    sliceJoin ws i1 i2 ≠ [] := by
  have hlen : 0 < (ws.drop i1).length := by
    rw [List.length_drop]
    omega
  obtain ⟨w, rest, hw⟩ := List.exists_cons_of_ne_nil
    (List.ne_nil_of_length_pos hlen)
  unfold sliceJoin
  rw [hw, show i2 - i1 = (i2 - i1 - 1) + 1 from by omega, List.take_succ_cons]
  exact joinSpace_ne w _
    (hts w (List.drop_subset i1 ws (hw ▸ List.mem_cons_self w rest)))

/-- The blocks of a diff form a chain: starting from pointers `(i, j)`,
each block begins at or after the current pointers, is nonempty, and the
chain ends within `(i2, j2)`. -/
inductive Chained : Nat → Nat → List (Nat × Nat × Nat) → Nat → Nat → Prop where
  | nil {i j i2 j2 : Nat} : i ≤ i2 → j ≤ j2 → Chained i j [] i2 j2
  | cons {i j ai bj k i2 j2 : Nat} {rest : List (Nat × Nat × Nat)} :
      i ≤ ai → j ≤ bj → 1 ≤ k → Chained (ai + k) (bj + k) rest i2 j2 →
      Chained i j ((ai, bj, k) :: rest) i2 j2

theorem Chained.weaken {i0 j0 i j i2 j2 : Nat} {l : List (Nat × Nat × Nat)}
    (hi : i0 ≤ i) (hj : j0 ≤ j) (h : Chained i j l i2 j2) :
    Chained i0 j0 l i2 j2 := by
  cases h with
  | nil h1 h2 => exact .nil (le_trans hi h1) (le_trans hj h2)
  | cons h1 h2 h3 h4 => exact .cons (le_trans hi h1) (le_trans hj h2) h3 h4

theorem Chained.append {i j m n i2 j2 : Nat}
    {l1 l2 : List (Nat × Nat × Nat)}
    (h1 : Chained i j l1 m n) (h2 : Chained m n l2 i2 j2) :
    Chained i j (l1 ++ l2) i2 j2 := by
  induction h1 with
  | nil ha hb => exact h2.weaken ha hb
  | cons ha hb hc _ ih => exact .cons ha hb hc (ih h2)

theorem Chained.ends_le {i j i2 j2 : Nat} {l : List (Nat × Nat × Nat)}
    (h : Chained i j l i2 j2) : i ≤ i2 ∧ j ≤ j2 := by
  induction h with
  | nil ha hb => exact ⟨ha, hb⟩
  | cons ha hb hc _ ih => omega

/-- The `j2len` row invariant after processing the rows `[alo, bound)`. -/
def RowInv (alo blo bhi bound : Nat) (f : Nat → Nat) : Prop :=
  ∀ j, f j ≤ bound - alo ∧ (1 ≤ f j → blo + f j ≤ j + 1 ∧ j < bhi)

/-- The best-block invariant after processing the rows `[alo, bound)`. -/
def BestInv (alo blo bhi bound : Nat) (best : Nat × Nat × Nat) : Prop :=
  best = (alo, blo, 0) ∨
    (1 ≤ best.2.2 ∧ alo ≤ best.1 ∧ best.1 + best.2.2 ≤ bound ∧
      blo ≤ best.2.1 ∧ best.2.1 + best.2.2 ≤ bhi)

theorem BestInv.relax {alo blo bhi m m' : Nat} {best : Nat × Nat × Nat}
    (hm : m ≤ m') (h : BestInv alo blo bhi m best) :
    BestInv alo blo bhi m' best := by
  rcases h with h | h
  · exact Or.inl h
  · exact Or.inr ⟨h.1, h.2.1, by omega, h.2.2.2⟩

theorem flmRow_inv (alo blo bhi i0 : Nat) (f : Nat → Nat)
    (hal : alo ≤ i0) (hJ : RowInv alo blo bhi i0 f) :
    ∀ (js : List Nat), (∀ j ∈ js, blo ≤ j ∧ j < bhi) →
      ∀ (nj : Nat → Nat) (best : Nat × Nat × Nat),
        RowInv alo blo bhi (i0 + 1) nj →
        BestInv alo blo bhi (i0 + 1) best →
        RowInv alo blo bhi (i0 + 1) (flmRow f i0 js nj best).1 ∧
          BestInv alo blo bhi (i0 + 1) (flmRow f i0 js nj best).2 := by
  intro js
  induction js with
  | nil => exact fun _ nj best hnj hbest => ⟨hnj, hbest⟩
  | cons j js ih =>
    intro hmem nj best hnj hbest
    have hjb := hmem j (List.mem_cons_self j js)
    simp only [flmRow]
    set k1 : Nat := (if j = 0 then 0 else f (j - 1)) + 1 with hk1
    have hone : 1 ≤ k1 := by omega
    have hkb : k1 ≤ i0 + 1 - alo := by
      rw [hk1]
      by_cases hj0 : j = 0
      · rw [if_pos hj0]
        omega
      · rw [if_neg hj0]
        have := (hJ (j - 1)).1
        omega
    have hkc : blo + k1 ≤ j + 1 := by
      rw [hk1]
      by_cases hj0 : j = 0
      · rw [if_pos hj0]
        have := hjb.1
        omega
      · rw [if_neg hj0]
        by_cases hf1 : 1 ≤ f (j - 1)
        · have := (hJ (j - 1)).2 hf1
          have := hjb.1
          omega
        · have hz : f (j - 1) = 0 := by omega
          rw [hz]
          have := hjb.1
          omega
    have hjlt := hjb.2
    refine ih (fun e he => hmem e (List.mem_cons_of_mem j he)) _ _ ?_ ?_
    · intro j'
      dsimp only
      by_cases hj' : j' = j
      · rw [if_pos hj']
        subst hj'
        exact ⟨hkb, fun _ => ⟨hkc, hjlt⟩⟩
      · rw [if_neg hj']
        exact hnj j'
    · dsimp only
      by_cases hgt : k1 > best.2.2
      · rw [if_pos hgt]
        refine Or.inr ⟨?_, ?_, ?_, ?_, ?_⟩ <;> dsimp only <;> omega
      · rw [if_neg hgt]
        exact hbest

theorem RowInv_zero (alo blo bhi bound : Nat) :
    RowInv alo blo bhi bound (fun _ => 0) :=
  fun _ => ⟨Nat.zero_le _, fun h => absurd h (Nat.not_succ_le_zero 0)⟩

theorem flmGo_inv (a b : List (List Char)) (alo blo bhi : Nat) :
    ∀ (n i0 : Nat), alo ≤ i0 →
      ∀ (f : Nat → Nat) (best : Nat × Nat × Nat),
        RowInv alo blo bhi i0 f →
        BestInv alo blo bhi i0 best →
        BestInv alo blo bhi (i0 + n)
          (flmGo a b blo bhi (List.range' i0 n) f best) := by
  intro n
  induction n with
  | zero =>
    intro i0 _ f best _ hb
    simpa [flmGo] using hb
  | succ n ih =>
    intro i0 hal f best hf hb
    rw [List.range'_succ]
    cases hx : a.get? i0 with
    | none =>
      simp only [flmGo, hx]
      have h := ih (i0 + 1) (by omega) (fun _ => 0) best
        (RowInv_zero alo blo bhi (i0 + 1)) (hb.relax (Nat.le_succ i0))
      rw [show i0 + (n + 1) = i0 + 1 + n from by omega]
      exact h
    | some x =>
      simp only [flmGo, hx]
      have hjs : ∀ j ∈ ((positionsOf x b).filter (fun j => blo ≤ j)).takeWhile
          (fun j => j < bhi), blo ≤ j ∧ j < bhi := by
        intro j hj
        have h2 : j < bhi := by simpa using List.mem_takeWhile_imp hj
        have h3 : j ∈ (positionsOf x b).filter (fun j => blo ≤ j) :=
          (List.takeWhile_prefix _).subset hj
        have h4 : blo ≤ j := by simpa using (List.mem_filter.mp h3).2
        exact ⟨h4, h2⟩
      obtain ⟨hr1, hr2⟩ := flmRow_inv alo blo bhi i0 f hal hf _ hjs
        (fun _ => 0) best (RowInv_zero alo blo bhi (i0 + 1))
        (hb.relax (Nat.le_succ i0))
      have h := ih (i0 + 1) (by omega) _ _ hr1 hr2
      rw [show i0 + (n + 1) = i0 + 1 + n from by omega]
      exact h

theorem flm_range (a b : List (List Char)) (alo ahi blo bhi : Nat)
    (hal : alo ≤ ahi)
    (hk : (find_longest_match a b alo ahi blo bhi).2.2 ≠ 0) :
    1 ≤ (find_longest_match a b alo ahi blo bhi).2.2 ∧
    alo ≤ (find_longest_match a b alo ahi blo bhi).1 ∧
    (find_longest_match a b alo ahi blo bhi).1 +
      (find_longest_match a b alo ahi blo bhi).2.2 ≤ ahi ∧
    blo ≤ (find_longest_match a b alo ahi blo bhi).2.1 ∧
    (find_longest_match a b alo ahi blo bhi).2.1 +
      (find_longest_match a b alo ahi blo bhi).2.2 ≤ bhi := by
  have h := flmGo_inv a b alo blo bhi (ahi - alo) alo le_rfl (fun _ => 0)
    (alo, blo, 0) (RowInv_zero alo blo bhi alo) (Or.inl rfl)
  rw [show alo + (ahi - alo) = ahi from by omega] at h
  unfold find_longest_match at hk ⊢
  rcases h with h | h
  · rw [h] at hk
    simp at hk
  · exact ⟨h.1, h.2.1, h.2.2.1, h.2.2.2.1, h.2.2.2.2⟩

theorem mblocks_chained (a b : List (List Char)) :
    ∀ (fuel alo ahi blo bhi : Nat), alo ≤ ahi → blo ≤ bhi →
      Chained alo blo (mblocks a b fuel alo ahi blo bhi) ahi bhi := by
  intro fuel
  induction fuel with
  | zero =>
    intro alo ahi blo bhi ha hb
    exact .nil ha hb
  | succ fuel ih =>
    intro alo ahi blo bhi ha hb
    simp only [mblocks]
    by_cases hz : (find_longest_match a b alo ahi blo bhi).2.2 = 0
    · rw [if_pos hz]
      exact .nil ha hb
    · rw [if_neg hz]
      obtain ⟨h1, h2, h3, h4, h5⟩ := flm_range a b alo ahi blo bhi ha hz
      exact (ih alo _ blo _ h2 h4).append
        (.cons le_rfl le_rfl h1 (ih _ ahi _ bhi h3 h5))

/-- The span conditions an opcode over `alen` and `blen` tokens satisfies:
the end pointers are in range, a `replace` has both spans nonempty, a
`delete` a nonempty left span, an `insert` a nonempty right span. -/
def OpSpans (alen blen : Nat) (op : Opcode) : Prop :=
  op.i2 ≤ alen ∧ op.j2 ≤ blen ∧
    (op.tag = .replace → op.i1 < op.i2 ∧ op.j1 < op.j2) ∧
    (op.tag = .delete → op.i1 < op.i2) ∧
    (op.tag = .insert → op.j1 < op.j2)

theorem opPrefix_spans (alen blen i j ai bj : Nat)
    (hia : ai ≤ alen) (hjb : bj ≤ blen) (op : Opcode)
    (hop : op ∈ (if i < ai ∧ j < bj then [Opcode.mk .replace i ai j bj]
      else if i < ai then [Opcode.mk .delete i ai j bj]
      else if j < bj then [Opcode.mk .insert i ai j bj] else [])) :
    OpSpans alen blen op := by
  split_ifs at hop with h1 h2 h3
  · rcases List.mem_singleton.mp hop with rfl
    exact ⟨hia, hjb, fun _ => h1, fun h => by simp at h, fun h => by simp at h⟩
  · rcases List.mem_singleton.mp hop with rfl
    exact ⟨hia, hjb, fun h => by simp at h, fun _ => h2, fun h => by simp at h⟩
  · rcases List.mem_singleton.mp hop with rfl
    exact ⟨hia, hjb, fun h => by simp at h, fun h => by simp at h, fun _ => h3⟩
  · exact absurd hop (List.not_mem_nil op)

theorem opcodesGo_spans (alen blen : Nat) :
    ∀ (blocks : List (Nat × Nat × Nat)) (i j : Nat),
      Chained i j blocks alen blen →
      ∀ op ∈ opcodesGo i j (blocks ++ [(alen, blen, 0)]),
        OpSpans alen blen op := by
  intro blocks
  induction blocks with
  | nil =>
    intro i j hch op hop
    obtain ⟨hia, hja⟩ := hch.ends_le
    rw [List.nil_append] at hop
    simp only [opcodesGo] at hop
    rw [if_neg (show ¬((0 : Nat) ≠ 0) from by decide)] at hop
    rw [List.append_nil, List.append_nil] at hop
    exact opPrefix_spans alen blen i j alen blen le_rfl le_rfl op hop
  | cons blk rest ih =>
    intro i j hch op hop
    rcases blk with ⟨ai, bj, k⟩
    cases hch with
    | cons h1 h2 h3 h4 =>
      obtain ⟨hak, hbk⟩ := h4.ends_le
      rw [List.cons_append] at hop
      simp only [opcodesGo] at hop
      rw [List.mem_append, List.mem_append] at hop
      rcases hop with (hop | hop) | hop
      · exact opPrefix_spans alen blen i j ai bj (by omega) (by omega) op hop
      · rw [if_pos (show k ≠ 0 from by omega)] at hop
        rcases List.mem_singleton.mp hop with rfl
        exact ⟨by dsimp only; omega, by dsimp only; omega,
          fun h => by simp at h, fun h => by simp at h, fun h => by simp at h⟩
      · exact ih (ai + k) (bj + k) h4 op hop

theorem get_opcodes_spans (a b : List (List Char)) :
    ∀ op ∈ get_opcodes a b, OpSpans a.length b.length op := by
  intro op hop
  unfold get_opcodes get_matching_blocks at hop
  exact opcodesGo_spans a.length b.length _ 0 0
    (mblocks_chained a b _ 0 a.length 0 b.length (Nat.zero_le _)
      (Nat.zero_le _)) op hop

theorem find_differences_spans (t1 t2 : List Char) :
    ∀ c ∈ find_differences t1 t2, c.original ≠ [] ∨ c.corrected ≠ [] := by
  intro c hc
  simp only [find_differences] at hc
  rw [List.mem_flatMap] at hc
  obtain ⟨op, hopmem, hcop⟩ := hc
  have hsp := get_opcodes_spans (pySplit t1) (pySplit t2) op hopmem
  rcases op with ⟨tag, i1, i2, j1, j2⟩
  obtain ⟨hi2, hj2, hrep, hdel, hins⟩ := hsp
  dsimp only at hi2 hj2 hrep hdel hins
  cases tag with
  | replace =>
    obtain ⟨ha, hb2⟩ := hrep rfl
    rcases List.mem_singleton.mp hcop with rfl
    exact Or.inl (sliceJoin_ne (pySplit t1) i1 i2 ha (by omega)
      (pySplit_ne t1))
  | delete =>
    have ha := hdel rfl
    rcases List.mem_singleton.mp hcop with rfl
    exact Or.inl (sliceJoin_ne (pySplit t1) i1 i2 ha (by omega)
      (pySplit_ne t1))
  | insert =>
    have ha := hins rfl
    rcases List.mem_singleton.mp hcop with rfl
    exact Or.inr (sliceJoin_ne (pySplit t2) j1 j2 ha (by omega)
      (pySplit_ne t2))
  | equal =>
    exact absurd hcop (List.not_mem_nil c)

/--
Claim C10: for every input text and config with rules enabled, every
change `correct()` creates from a rule-engine change description has an
empty `original` field and an empty `corrected` field and confidence 1.0
(only the description carries information), while every change produced
from the generative-diff stage carries at least one nonempty affected
token span.
-/
theorem claim_C10 (selfUseMl : Bool) (collab : Collab) (text : List Char)
    (config : CorrectionConfig) (_hr : config.use_rules = true) :
    ∃ ruleCs mlCs,
      (correct selfUseMl collab text config).changes = ruleCs ++ mlCs ∧
      (∀ c ∈ ruleCs, c.original = [] ∧ c.corrected = [] ∧
        c.confidence = mkRat 1 1) ∧
      (∀ c ∈ mlCs, c.original ≠ [] ∨ c.corrected ≠ []) := by
  refine ⟨(rules_stage config text (resolve_language config text)).2.map
      mk_rule_change,
    (ml_stage selfUseMl collab config (resolve_language config text)
      (rules_stage config text (resolve_language config text)).1).2,
    rfl, ?_, ?_⟩
  · intro c hc
    obtain ⟨d, _, rfl⟩ := List.mem_map.mp hc
    exact ⟨rfl, rfl, rfl⟩
  · intro c hc
    obtain ⟨x, y, hxy⟩ := ml_stage_changes_mem selfUseMl collab config _ _ c hc
    exact find_differences_spans x y c hxy

/-- Witness for C10: the default configuration has rules enabled, and the
claim instantiates on the demo scenario. -/
theorem claim_C10_witness :
    ({} : CorrectionConfig).use_rules = true ∧
    (∃ ruleCs mlCs,
      (correct true collab_nice demo_text {}).changes = ruleCs ++ mlCs ∧
      (∀ c ∈ ruleCs, c.original = [] ∧ c.corrected = [] ∧
        c.confidence = mkRat 1 1) ∧
      (∀ c ∈ mlCs, c.original ≠ [] ∨ c.corrected ≠ [])) :=
  ⟨rfl, claim_C10 true collab_nice demo_text {} rfl⟩

end Pulox
